import Mathlib

/-!
# Verification of the argos-translate translation graph core

Shallow embedding of `src/argostranslate/translate.py`.

Conventions of the embedding:
* `Hypothesis` mirrors the Python class `Hypothesis` (a value/score pair);
  scores are modelled as `Int` — every algebraic fact proved here uses only
  ordering and addition of scores, which the integers share with the floats
  the code manipulates.
* A translation edge (`ITranslation` subclass) is modelled by the inductive
  `ETrans`: `package` carries an abstract hypothesis function standing for
  `apply_packaged_translation` (whose body calls the external ctranslate2
  and sentencepiece collaborators), `identity` mirrors `IdentityTranslation`
  and `composite` mirrors `CompositeTranslation` (holding its two sub-edges).
  Edges reference their endpoint languages only through the language codes,
  which is all the source ever reads from them (`x.to_lang.code`).
* Python's `list.sort()` is a stable ascending sort driven by
  `Hypothesis.__lt__` (score comparison).  It is modelled by
  `List.insertionSort hypLE`, which produces the same list: both are the
  unique stable ascending-by-score reordering.
* Fallible operations (`[0]` on a possibly-empty list, reading an unbound
  local) are modelled with `Option`/`Except`.
-/

/-- Mirror of the Python `Hypothesis` class: a translation value and the
score representing its quality.  `__lt__` compares scores. -/
structure Hypothesis where
  value : String
  score : Int
deriving DecidableEq, Repr

/-- The (non-strict) order used to model Python's stable `list.sort()` on
hypotheses, whose comparisons are `Hypothesis.__lt__`, i.e. score `<`. -/
def hypLE (a b : Hypothesis) : Prop := a.score ≤ b.score

instance : DecidableRel hypLE := fun a b => inferInstanceAs (Decidable (a.score ≤ b.score))

instance : IsTotal Hypothesis hypLE := ⟨fun a b => Int.le_total a.score b.score⟩

instance : IsTrans Hypothesis hypLE := ⟨fun _ _ _ => Int.le_trans⟩

/-- The list `to_return` built by the nested loops of
`CompositeTranslation.hypotheses` (lines 178–186): for each hypothesis of
`t1` on the input, every hypothesis of `t2` on its value, combined with the
second value and the sum of the two scores, in loop order. -/
def crossHypotheses (h1 h2 : String → Nat → List Hypothesis)
    (input_text : String) (num_hypotheses : Nat) : List Hypothesis :=
  (h1 input_text num_hypotheses).flatMap fun t1_hypothesis =>
    (h2 t1_hypothesis.value num_hypotheses).map fun t2_hypothesis =>
      ⟨t2_hypothesis.value, t1_hypothesis.score + t2_hypothesis.score⟩

/-- Mirror of `CompositeTranslation.hypotheses` (lines 173–188), abstracted over the
hypothesis functions of the two sub-edges: build the cross product, then
`to_return.sort()` — Python's stable ascending sort by score — and keep the
first `num_hypotheses` elements. -/
def combineHypotheses (h1 h2 : String → Nat → List Hypothesis)
    (input_text : String) (num_hypotheses : Nat) : List Hypothesis :=
  (List.insertionSort hypLE (crossHypotheses h1 h2 input_text num_hypotheses)).take
    num_hypotheses

/-- Translation edges of the OpenNMT graph: `PackageTranslation` (its
behaviour abstracted as `hypFun`, since `apply_packaged_translation` calls
the external ctranslate2/sentencepiece collaborators), `IdentityTranslation`
and `CompositeTranslation`.  Language endpoints are kept as codes. -/
inductive ETrans where
  | package (from_code to_code : String) (hypFun : String → Nat → List Hypothesis)
  | identity (code : String)
  | composite (t1 t2 : ETrans)

/-- The `from_lang.code` of an edge (composites take it from `t1`, line 170). -/
def ETrans.fromCode : ETrans → String
  | .package f _ _ => f
  | .identity c => c
  | .composite t1 _ => t1.fromCode

/-- The `to_lang.code` of an edge (composites take it from `t2`, line 171). -/
def ETrans.toCode : ETrans → String
  | .package _ t _ => t
  | .identity c => c
  | .composite _ t2 => t2.toCode

/-- The `hypotheses` method of each edge variant:
`PackageTranslation.hypotheses` delegates to the packaged model (abstract),
`IdentityTranslation.hypotheses` is `[Hypothesis(input_text, 0)] * n`
(line 148), `CompositeTranslation.hypotheses` is the combination algorithm
of lines 173–188. -/
def ETrans.hypotheses : ETrans → String → Nat → List Hypothesis
  | .package _ _ f, input_text, num_hypotheses => f input_text num_hypotheses
  | .identity _, input_text, num_hypotheses =>
      List.replicate num_hypotheses ⟨input_text, 0⟩
  | .composite t1 t2, input_text, num_hypotheses =>
      (List.insertionSort hypLE
        ((t1.hypotheses input_text num_hypotheses).flatMap fun a =>
          (t2.hypotheses a.value num_hypotheses).map fun b =>
            ⟨b.value, a.score + b.score⟩)).take num_hypotheses

/-- Mirror of `ITranslation.translate` (line 52): `hypotheses(input_text, 1)[0].value`;
the `[0]` indexing is modelled with `Option`. -/
def ETrans.translate (e : ETrans) (input_text : String) : Option String :=
  (e.hypotheses input_text 1).head?.map Hypothesis.value

theorem composite_hypotheses_eq (t1 t2 : ETrans) :
    (ETrans.composite t1 t2).hypotheses
      = combineHypotheses t1.hypotheses t2.hypotheses := rfl

/-! ## FewShotTranslation (lines 216–233)

The loop body of `FewShotTranslation.hypotheses` executes
`to_return += result` and the return statement reads `to_return`, but no
statement of the method ever initializes `to_return`.  In Python, reading a
local variable before any assignment raises `UnboundLocalError`.  The state
of `to_return` is modelled as `Option String` (`none` = unbound), a read of
an unbound local as `Except.error`.  The per-sentence pipeline
`fewshot.parse_inference(self.language_model.infer(fewshot.generate_prompt(
sentence, …)))` goes through external collaborators (`fewshot` and the
language model) and is abstracted as one function `resultOf`; the sentence
chunker `chunk.chunk` is abstracted as `chunker`. -/

/-- The unbound-local error message Python raises for `to_return`. -/
def unboundToReturn : String :=
  "UnboundLocalError: local variable referenced before assignment"

/-- The `for sentence in sentences:` loop of `FewShotTranslation.hypotheses`
(lines 219–232): each iteration executes `to_return += result`, which reads
`to_return` (error when still unbound) and appends the sentence's result. -/
def fewShotLoop (resultOf : String → String) :
    Option String → List String → Except String (Option String)
  | to_return, [] => .ok to_return
  | none, _ :: _ => .error unboundToReturn
  | some v, sentence :: rest => fewShotLoop resultOf (some (v ++ resultOf sentence)) rest

/-- Mirror of `FewShotTranslation.hypotheses` (lines 216–233): chunk the input, run
the accumulation loop starting from an *unbound* `to_return`, then return
`[Hypothesis(to_return, 0)] * num_hypotheses` — the final read of
`to_return` also errors when it is still unbound. -/
def fewShotHypotheses (chunker : String → List String) (resultOf : String → String)
    (input_text : String) (num_hypotheses : Nat) : Except String (List Hypothesis) :=
  match fewShotLoop resultOf none (chunker input_text) with
  | .error e => .error e
  | .ok none => .error unboundToReturn
  | .ok (some v) => .ok (List.replicate num_hypotheses ⟨v, 0⟩)

/-! ## Settling C1 and C4 -/

/-- A concrete first sub-edge hypothesis function: two hypotheses with
scores 1 and 0. -/
def t1ex : String → Nat → List Hypothesis := fun _ _ => [⟨"a", 1⟩, ⟨"b", 0⟩]

/-- A concrete second sub-edge hypothesis function: two hypotheses with
scores 2 and 0 whose values record the intermediate value. -/
def t2ex : String → Nat → List Hypothesis := fun s _ => [⟨s ++ "x", 2⟩, ⟨s ++ "y", 0⟩]

/-- C1 (counterexample): with sub-edges `t1ex`, `t2ex` each returning
exactly 2 hypotheses, the cross-product scores are 3, 1, 2, 0, yet
`CompositeTranslation.hypotheses` returns the hypotheses scored 0 and 1 —
ascending, not descending, and the top-scored combined hypothesis
`("ax", 3)` of the cross-product is discarded.  The claimed
descending/top-n behaviour is therefore false. -/
theorem composite_hypotheses_not_top_n :
    (combineHypotheses t1ex t2ex "" 2).map Hypothesis.score = [0, 1] ∧
    ¬ List.Sorted (fun a b : Hypothesis => b.score ≤ a.score)
        (combineHypotheses t1ex t2ex "" 2) ∧
    (⟨"ax", 3⟩ : Hypothesis) ∈ crossHypotheses t1ex t2ex "" 2 ∧
    (⟨"ax", 3⟩ : Hypothesis) ∉ combineHypotheses t1ex t2ex "" 2 := by
  refine ⟨by decide, ?_, by decide, by decide⟩
  have hc : combineHypotheses t1ex t2ex "" 2 = [⟨"by", 0⟩, ⟨"ay", 1⟩] := by decide
  rw [hc]
  decide

/-- C1 (amended): given sub-edges whose hypotheses calls each return exactly
`n ≥ 1` hypotheses, `CompositeTranslation.hypotheses` returns exactly `n`
hypotheses drawn from the n-by-n cross-product with additive scores — but
sorted *ascending* by score: it keeps the *bottom* `n` of the cross-product
(every discarded combined hypothesis scores at least as high as every
returned one). -/
theorem composite_hypotheses_bottom_n (t1 t2 : String → Nat → List Hypothesis)
    (input_text : String) (n : Nat) (hn : 1 ≤ n)
    (h1 : (t1 input_text n).length = n) (h2 : ∀ s, (t2 s n).length = n) :
    (combineHypotheses t1 t2 input_text n).length = n ∧
    List.Sorted hypLE (combineHypotheses t1 t2 input_text n) ∧
    (∀ h ∈ combineHypotheses t1 t2 input_text n,
      ∃ a ∈ t1 input_text n, ∃ b ∈ t2 a.value n,
        h = ⟨b.value, a.score + b.score⟩) ∧
    (∀ h ∈ combineHypotheses t1 t2 input_text n,
      ∀ c ∈ crossHypotheses t1 t2 input_text n,
        c ∉ combineHypotheses t1 t2 input_text n → h.score ≤ c.score) := by
  have hperm : List.Perm (List.insertionSort hypLE (crossHypotheses t1 t2 input_text n))
      (crossHypotheses t1 t2 input_text n) := List.perm_insertionSort _ _
  have hsort : List.Sorted hypLE
      (List.insertionSort hypLE (crossHypotheses t1 t2 input_text n)) :=
    List.sorted_insertionSort _ _
  have hlen : n ≤ (crossHypotheses t1 t2 input_text n).length := by
    cases hx : t1 input_text n with
    | nil => rw [hx] at h1; simp at h1; omega
    | cons a as =>
      have : crossHypotheses t1 t2 input_text n
          = ((t2 a.value n).map fun b => ⟨b.value, a.score + b.score⟩)
            ++ (as.flatMap fun a' =>
              (t2 a'.value n).map fun b => ⟨b.value, a'.score + b.score⟩) := by
        rw [crossHypotheses, hx, List.flatMap_cons]
      rw [this]
      simp [h2]
  have hslen : n ≤ (List.insertionSort hypLE
      (crossHypotheses t1 t2 input_text n)).length := by
    rwa [hperm.length_eq]
  refine ⟨?_, ?_, ?_, ?_⟩
  · rw [combineHypotheses, List.length_take]
    omega
  · exact List.Pairwise.sublist (List.take_sublist _ _) hsort
  · intro h hmem
    have hcross : h ∈ crossHypotheses t1 t2 input_text n :=
      hperm.mem_iff.mp (List.mem_of_mem_take hmem)
    rw [crossHypotheses] at hcross
    simp only [List.mem_flatMap, List.mem_map] at hcross
    obtain ⟨a, ha, b, hb, hvb⟩ := hcross
    exact ⟨a, ha, b, hb, hvb.symm⟩
  · intro h hmem c hc hcnot
    have hcs : c ∈ List.insertionSort hypLE (crossHypotheses t1 t2 input_text n) :=
      hperm.mem_iff.mpr hc
    rw [← List.take_append_drop n
      (List.insertionSort hypLE (crossHypotheses t1 t2 input_text n))] at hcs
    rcases List.mem_append.mp hcs with hcs | hcs
    · exact absurd hcs hcnot
    · have hsort' : List.Sorted hypLE
          (List.take n (List.insertionSort hypLE (crossHypotheses t1 t2 input_text n))
            ++ List.drop n (List.insertionSort hypLE (crossHypotheses t1 t2 input_text n))) := by
        rw [List.take_append_drop]
        exact hsort
      exact (List.pairwise_append.mp hsort').2.2 h hmem c hcs

/-- C1 (witness): the amended theorem applied to the concrete sub-edges
`t1ex`, `t2ex` with `n = 2`. -/
theorem composite_hypotheses_bottom_n_witness :
    (combineHypotheses t1ex t2ex "" 2).length = 2 ∧
    List.Sorted hypLE (combineHypotheses t1ex t2ex "" 2) ∧
    (∀ h ∈ combineHypotheses t1ex t2ex "" 2,
      ∃ a ∈ t1ex "" 2, ∃ b ∈ t2ex a.value 2,
        h = ⟨b.value, a.score + b.score⟩) ∧
    (∀ h ∈ combineHypotheses t1ex t2ex "" 2,
      ∀ c ∈ crossHypotheses t1ex t2ex "" 2,
        c ∉ combineHypotheses t1ex t2ex "" 2 → h.score ≤ c.score) :=
  composite_hypotheses_bottom_n t1ex t2ex "" 2 (by decide) (by decide)
    (fun s => by simp [t2ex])

/-- C4: `FewShotTranslation.hypotheses` never returns hypotheses — for every
chunker, every external-completion result function, every input text and
every hypothesis count it raises `UnboundLocalError`, because the
accumulator `to_return` is read (`to_return += result`, and the final
`Hypothesis(to_return, 0)`) without ever being initialized. -/
theorem fewshot_hypotheses_always_errors (chunker : String → List String)
    (resultOf : String → String) (input_text : String) (num_hypotheses : Nat) :
    fewShotHypotheses chunker resultOf input_text num_hypotheses
      = .error unboundToReturn := by
  rw [fewShotHypotheses]
  cases chunker input_text with
  | nil => rfl
  | cons s rest => rfl

/-! ## The OpenNMT translation graph builder

`get_installed_languages` (lines 296–347 and 374–387), modelled for the
OPENNMT provider branch — the branch every graph-builder claim is about.
(The LIBRETRANSLATE and OPENAI branches delegate to the external `apis`
collaborator.)

The Python code mutates `Language` objects in place; during the pivot
closure of a language `c` only `c`'s own `translations_from` list is
mutated (composites are appended to `language.translations_from` and to
other languages' `translations_to`, which no closure code reads), so the
state is a map `E` from language code to its current `translations_from`
list plus the working list `L` of the language currently being closed.

Python's `for x in lst:` iterates by index over the *live* list, so
elements appended during iteration are visited too; both closure `for`
loops iterate lists they may be appending to (via `language.translations_from`,
which `translation.to_lang.translations_from` aliases when
`translation.to_lang` is `language` itself, e.g. for the identity edge).
The loops are therefore modelled index-by-index, re-reading the live list
at each step.  The recursion is driven by fuel; each loop reports whether
it finished by exhausting its list / reaching a pass that added nothing
(`true`) rather than by running out of fuel (`false`), and the fuel bounds
are justified by the termination theorem for C3. -/

/-- A discovered installed package (the fields of `package.Package` that
`get_installed_languages` reads).  `hypFun` abstracts the behaviour of
`apply_packaged_translation` for this package's model, which calls the
external ctranslate2/sentencepiece collaborators. -/
structure Package where
  type : String
  from_code : String
  from_name : String
  to_code : String
  to_name : String
  hypFun : String → Nat → List Hypothesis

/-- Line 305: `filter(lambda x: x.type == "translate", packages)`. -/
def translatePackages (pkgs : List Package) : List Package :=
  pkgs.filter (fun p => p.type == "translate")

/-- One `if code not in language_of_code: language_of_code[code] = …` step
(lines 310–313) on the insertion-ordered dict. -/
def addLang (acc : List (String × String)) (code name : String) :
    List (String × String) :=
  if acc.any (fun cn => cn.1 == code) then acc else acc ++ [(code, name)]

/-- Lines 308–313: the `language_of_code` dict in insertion order, as
(code, name) pairs — for each package, first its from-language then its
to-language, each added only if its code is not yet present. -/
def collectLangs (tpkgs : List Package) : List (String × String) :=
  tpkgs.foldl
    (fun acc p => addLang (addLang acc p.from_code p.from_name) p.to_code p.to_name) []

/-- The `translations_from` list of the language with code `c` right before
the pivot closure: its direct `PackageTranslation` edges in package order
(lines 314–318) followed by its `IdentityTranslation` (lines 324–326). -/
def initialEdges (tpkgs : List Package) (c : String) : List ETrans :=
  (tpkgs.filterMap fun p =>
    if p.from_code == c then some (.package p.from_code p.to_code p.hypFun)
    else none) ++ [.identity c]

/-- Mirror of `Language.get_translation` (lines 96–112) on a `translations_from`
list, keyed by the destination's code: the first edge whose
`to_lang.code` equals it, else `None`. -/
def getTranslationOfCode (L : List ETrans) (code : String) : Option ETrans :=
  L.find? (fun e => e.toCode == code)

/-- The inner `for translation_2 in translation.to_lang.translations_from:`
loop (lines 336–347) for fixed `translation = t`, iterating by index `j`
over the live list (which is `L` itself when `t.to_lang` is the language
being closed): when the language has no translation to `translation_2.to_lang`
yet, append `CompositeTranslation(t, t2)` and record that an edge was added.
Returns (new `L`, `keep_adding_translations` flag, finished-normally flag). -/
def innerLoop (E : String → List ETrans) (c : String) (t : ETrans) :
    Nat → List ETrans → Bool → Nat → List ETrans × Bool × Bool
  | 0, L, added, _ => (L, added, false)
  | fuel + 1, L, added, j =>
    match (if t.toCode == c then L else E t.toCode)[j]? with
    | none => (L, added, true)
    | some t2 =>
      if (L.find? (fun e => e.toCode == t2.toCode)).isSome then
        innerLoop E c t fuel L added (j + 1)
      else
        innerLoop E c t fuel (L ++ [.composite t t2]) true (j + 1)

/-- Fuel sufficient for the inner loop: current length of the iterated
list, plus one per code the language may still gain an edge to, plus one. -/
def innerFuel (allCodes : List String) (E : String → List ETrans) (c : String)
    (t : ETrans) (L : List ETrans) : Nat :=
  (if t.toCode == c then L else E t.toCode).length + allCodes.length + 1

/-- Fuel sufficient for the outer loop, by the same measure. -/
def outerFuel (allCodes : List String) (L : List ETrans) : Nat :=
  L.length + allCodes.length + 1

/-- The outer `for translation in language.translations_from:` loop
(lines 335–347), iterating by index `i` over the live list `L`. -/
def outerLoop (allCodes : List String) (E : String → List ETrans) (c : String) :
    Nat → List ETrans → Bool → Nat → List ETrans × Bool × Bool
  | 0, L, added, _ => (L, added, false)
  | fuel + 1, L, added, i =>
    match L[i]? with
    | none => (L, added, true)
    | some t =>
      if (innerLoop E c t (innerFuel allCodes E c t L) L added 0).2.2 then
        outerLoop allCodes E c fuel
          (innerLoop E c t (innerFuel allCodes E c t L) L added 0).1
          (innerLoop E c t (innerFuel allCodes E c t L) L added 0).2.1 (i + 1)
      else ((innerLoop E c t (innerFuel allCodes E c t L) L added 0).1,
        (innerLoop E c t (innerFuel allCodes E c t L) L added 0).2.1, false)

/-- The `while keep_adding_translations:` loop (lines 332–347): run a full
pass with the flag reset to `False`; repeat while the pass added an edge. -/
def whileLoop (allCodes : List String) (E : String → List ETrans) (c : String) :
    Nat → List ETrans → List ETrans × Bool
  | 0, L => (L, false)
  | fuel + 1, L =>
    if (outerLoop allCodes E c (outerFuel allCodes L) L false 0).2.2 then
      if (outerLoop allCodes E c (outerFuel allCodes L) L false 0).2.1 then
        whileLoop allCodes E c fuel
          (outerLoop allCodes E c (outerFuel allCodes L) L false 0).1
      else ((outerLoop allCodes E c (outerFuel allCodes L) L false 0).1, true)
    else ((outerLoop allCodes E c (outerFuel allCodes L) L false 0).1, false)

/-- The pivot closure of one language (the body of
`for language in languages:` at line 331). -/
def closeLang (allCodes : List String) (E : String → List ETrans) (c : String)
    (L : List ETrans) : List ETrans × Bool :=
  whileLoop allCodes E c (allCodes.length + 1) L

/-- Lines 331–347: close each language in turn, threading the updated
edge-list map; the `Bool` records that every loop finished normally. -/
def closureFold (allCodes : List String) :
    List String → (String → List ETrans) → Bool → (String → List ETrans) × Bool
  | [], E, ok => (E, ok)
  | c :: rest, E, ok =>
    closureFold allCodes rest
      (Function.update E c (closeLang allCodes E c (E c)).1)
      (ok && (closeLang allCodes E c (E c)).2)

/-- A resolved `Language` node of the final graph.  (`translations_to` is
never read by any of the verified operations and is omitted.) -/
structure GLanguage where
  code : String
  name : String
  translations_from : List ETrans

/-- Mirror of `Language.get_translation` (lines 96–112): the argument is a `Language`
object, of which only `to.code` is read. -/
def GLanguage.getTranslation (self toLang : GLanguage) : Option ETrans :=
  getTranslationOfCode self.translations_from toLang.code

/-- Line 383: `languages.sort(key=lambda x: x.name)` — Python's stable
ascending sort by name, modelled by stable insertion sort. -/
def sortByName (langs : List GLanguage) : List GLanguage :=
  List.insertionSort (fun a b : GLanguage => a.name ≤ b.name) langs

/-- Lines 374–385: pop the first language with code "en" (if any), sort the
rest by name, and put English back in front. -/
def reorderLanguages (langs : List GLanguage) : List GLanguage :=
  match langs.findIdx? (fun l => l.code == "en") with
  | none => sortByName langs
  | some i =>
    match langs[i]? with
    | none => sortByName langs
    | some en => en :: sortByName (langs.eraseIdx i)

/-- Mirror of `get_installed_languages` for the OPENNMT provider, together with the
flag that all closure loops completed normally (used to state C3). -/
def buildGraph (pkgs : List Package) : List GLanguage × Bool :=
  let tpkgs := translatePackages pkgs
  let cns := collectLangs tpkgs
  let allCodes := cns.map Prod.fst
  let r := closureFold allCodes allCodes (fun c => initialEdges tpkgs c) true
  (reorderLanguages (cns.map fun cn => ⟨cn.1, cn.2, r.1 cn.1⟩), r.2)

/-- Mirror of `get_installed_languages` (lines 296–387, OPENNMT branch). -/
def getInstalledLanguages (pkgs : List Package) : List GLanguage :=
  (buildGraph pkgs).1

/-- Mirror of `get_language_from_code` (lines 390–402):
`list(filter(lambda x: x.code == code, get_installed_languages()))[0]`; the
`[0]` on an empty filter raises `IndexError`, modelled as `Except.error`. -/
def getLanguageFromCode (pkgs : List Package) (code : String) :
    Except String GLanguage :=
  match ((getInstalledLanguages pkgs).filter (fun l => l.code == code)).head? with
  | some l => .ok l
  | none => .error "IndexError: list index out of range"

/-- Mirror of `get_translation_from_codes` (lines 405–420): resolve each code with its
own `get_installed_languages` rebuild, then `from_lang.get_translation(to_lang)`
— which returns `None` (`ok none`) when no edge exists. -/
def getTranslationFromCodes (pkgs : List Package) (from_code to_code : String) :
    Except String (Option ETrans) :=
  match getLanguageFromCode pkgs from_code with
  | .error e => .error e
  | .ok from_lang =>
    match getLanguageFromCode pkgs to_code with
    | .error e => .error e
    | .ok to_lang => .ok (from_lang.getTranslation to_lang)

/-! ### Analysis of the closure loops

The measure that drives termination: every composite append is guarded by
`language.get_translation(...) is None`, so it strictly shrinks the set of
graph codes the language cannot yet translate to, while advancing an index
costs one list element — each loop's fuel is bounded by list length plus
`allCodes.length` plus one. -/

/-- The codes of `allCodes` that the edge list `L` has no translation to. -/
def missCount (allCodes : List String) (L : List ETrans) : Nat :=
  (allCodes.toFinset.filter (fun d => (getTranslationOfCode L d).isNone)).card

theorem getTranslationOfCode_append (L s : List ETrans) (d : String) :
    getTranslationOfCode (L ++ s) d
      = (getTranslationOfCode L d).or (getTranslationOfCode s d) :=
  List.find?_append

theorem isSome_getTranslationOfCode_append {L : List ETrans} {d : String}
    (h : (getTranslationOfCode L d).isSome = true) (s : List ETrans) :
    (getTranslationOfCode (L ++ s) d).isSome = true := by
  rw [getTranslationOfCode_append]
  cases hx : getTranslationOfCode L d with
  | none => rw [hx] at h; simp at h
  | some e => simp [Option.or]

theorem isNone_getTranslationOfCode_of_append {L s : List ETrans} {d : String}
    (h : (getTranslationOfCode (L ++ s) d).isNone = true) :
    (getTranslationOfCode L d).isNone = true := by
  rw [getTranslationOfCode_append] at h
  cases hx : getTranslationOfCode L d with
  | none => rfl
  | some e => rw [hx] at h; simp [Option.or] at h

theorem missCount_append_le (allCodes : List String) (L s : List ETrans) :
    missCount allCodes (L ++ s) ≤ missCount allCodes L := by
  apply Finset.card_le_card
  intro d hd
  rw [Finset.mem_filter] at hd ⊢
  exact ⟨hd.1, isNone_getTranslationOfCode_of_append hd.2⟩

/-- A guarded append (destination code in the graph, no existing edge to it)
decreases the miss count by exactly one. -/
theorem missCount_append_guard (allCodes : List String) (L : List ETrans)
    (e : ETrans) (hd : e.toCode ∈ allCodes)
    (hnone : (getTranslationOfCode L e.toCode).isSome = false) :
    missCount allCodes (L ++ [e]) + 1 = missCount allCodes L := by
  have hnone' : getTranslationOfCode L e.toCode = none := by
    cases hx : getTranslationOfCode L e.toCode with
    | none => rfl
    | some x => rw [hx] at hnone; simp at hnone
  have hfilter : allCodes.toFinset.filter
        (fun d => (getTranslationOfCode (L ++ [e]) d).isNone)
      = (allCodes.toFinset.filter
          (fun d => (getTranslationOfCode L d).isNone)).erase e.toCode := by
    ext x
    rw [Finset.mem_erase, Finset.mem_filter, Finset.mem_filter]
    constructor
    · intro ⟨hx, hnx⟩
      have hxL := isNone_getTranslationOfCode_of_append hnx
      refine ⟨?_, hx, hxL⟩
      intro hxe
      subst hxe
      rw [getTranslationOfCode_append, hnone'] at hnx
      simp [getTranslationOfCode, Option.or] at hnx
    · intro ⟨hne, hx, hnx⟩
      refine ⟨hx, ?_⟩
      rw [getTranslationOfCode_append]
      cases hy : getTranslationOfCode L x with
      | some y => rw [hy] at hnx; simp at hnx
      | none =>
        simp only [Option.or]
        simp [getTranslationOfCode, List.find?, show (e.toCode == x) = false
          from by simp [Ne.symm hne]]

  have hmem : e.toCode ∈ allCodes.toFinset.filter
      (fun d => (getTranslationOfCode L d).isNone) := by
    rw [Finset.mem_filter, List.mem_toFinset]
    exact ⟨hd, by rw [hnone']; rfl⟩
  rw [missCount, missCount, hfilter, Finset.card_erase_of_mem hmem]
  have : 0 < (allCodes.toFinset.filter
      (fun d => (getTranslationOfCode L d).isNone)).card :=
    Finset.card_pos.mpr ⟨e.toCode, hmem⟩
  omega

theorem missCount_le (allCodes : List String) (L : List ETrans) :
    missCount allCodes L ≤ allCodes.length :=
  le_trans (Finset.card_filter_le _ _) (List.toFinset_card_le _)

/-- The inner loop only ever appends to `L`. -/
theorem innerLoop_append (E : String → List ETrans) (c : String) (t : ETrans) :
    ∀ fuel L added j, ∃ s, (innerLoop E c t fuel L added j).1 = L ++ s := by
  intro fuel
  induction fuel with
  | zero => intro L added j; exact ⟨[], by simp [innerLoop]⟩
  | succ fuel ih =>
    intro L added j
    rw [innerLoop]
    split
    · exact ⟨[], by simp⟩
    · split
      · exact ih L added (j + 1)
      · rename_i t2 hM hg
        obtain ⟨s, hs⟩ := ih (L ++ [.composite t t2]) true (j + 1)
        refine ⟨ETrans.composite t t2 :: s, ?_⟩
        rw [hs, List.append_assoc]
        rfl

/-- The inner loop's `keep_adding_translations` flag is set exactly when it
was already set or the pass appended an edge. -/
theorem innerLoop_added_iff (E : String → List ETrans) (c : String) (t : ETrans) :
    ∀ fuel L added j,
      ((innerLoop E c t fuel L added j).2.1 = true
        ↔ (added = true ∨ L.length < (innerLoop E c t fuel L added j).1.length)) := by
  intro fuel
  induction fuel with
  | zero => intro L added j; simp [innerLoop]
  | succ fuel ih =>
    intro L added j
    rw [innerLoop]
    split
    · simp
    · split
      · exact ih L added (j + 1)
      · rename_i t2 hM hg
        have h1 : (innerLoop E c t fuel (L ++ [.composite t t2]) true (j + 1)).2.1
            = true := (ih _ true (j + 1)).mpr (Or.inl rfl)
        obtain ⟨s, hs⟩ := innerLoop_append E c t fuel (L ++ [.composite t t2]) true (j + 1)
        have h2 : L.length
            < (innerLoop E c t fuel (L ++ [.composite t t2]) true (j + 1)).1.length := by
          rw [hs]
          simp
        simp [h1, h2]

/-- Invariant of a `translations_from` list under construction for the
language with code `c`: destinations are graph codes, sources are `c`. -/
def EdgesOK (allCodes : List String) (c : String) (L : List ETrans) : Prop :=
  (∀ e ∈ L, e.toCode ∈ allCodes) ∧ (∀ e ∈ L, e.fromCode = c)

/-- The same invariant for every language's edge list in the state map. -/
def EnvOK (allCodes : List String) (E : String → List ETrans) : Prop :=
  ∀ d ∈ allCodes, EdgesOK allCodes d (E d)

/-- With enough fuel — remaining list length plus miss count plus one — the
inner loop finishes normally, preserves `length + missCount` (each append
gains one edge and loses exactly one missing destination) and preserves the
edge invariant. -/
theorem innerLoop_spec (allCodes : List String) (E : String → List ETrans)
    (c : String) (t : ETrans) (hE : EnvOK allCodes E)
    (ht : t.toCode ∈ allCodes) (htf : t.fromCode = c) :
    ∀ fuel L added j, EdgesOK allCodes c L →
      (if t.toCode == c then L else E t.toCode).length - j
        + missCount allCodes L + 1 ≤ fuel →
      (innerLoop E c t fuel L added j).2.2 = true ∧
      (innerLoop E c t fuel L added j).1.length
          + missCount allCodes (innerLoop E c t fuel L added j).1
        = L.length + missCount allCodes L ∧
      EdgesOK allCodes c (innerLoop E c t fuel L added j).1 := by
  intro fuel
  induction fuel with
  | zero => intro L added j hL hfuel; omega
  | succ fuel ih =>
    intro L added j hL hfuel
    rw [innerLoop]
    split
    · exact ⟨rfl, rfl, hL⟩
    · rename_i t2 hM
      have hjlt : j < (if t.toCode == c then L else E t.toCode).length :=
        (List.getElem?_eq_some.mp hM).1
      split
      · rename_i hg
        apply ih L added (j + 1) hL
        omega
      · rename_i hg
        have ht2 : t2 ∈ (if t.toCode == c then L else E t.toCode) := by
          obtain ⟨h, hEq⟩ := List.getElem?_eq_some.mp hM
          rw [← hEq]
          exact List.getElem_mem h
        have ht2c : t2.toCode ∈ allCodes := by
          by_cases hali : (t.toCode == c) = true
          · rw [if_pos hali] at ht2
            exact hL.1 t2 ht2
          · rw [if_neg hali] at ht2
            exact (hE t.toCode ht).1 t2 ht2
        have hgn : (getTranslationOfCode L t2.toCode).isSome = false := by
          simpa [getTranslationOfCode] using hg
        have hmiss : missCount allCodes (L ++ [.composite t t2]) + 1
            = missCount allCodes L :=
          missCount_append_guard allCodes L (.composite t t2) ht2c hgn
        have hL' : EdgesOK allCodes c (L ++ [.composite t t2]) := by
          constructor
          · intro e he
            rcases List.mem_append.mp he with he | he
            · exact hL.1 e he
            · rw [List.mem_singleton.mp he]
              exact ht2c
          · intro e he
            rcases List.mem_append.mp he with he | he
            · exact hL.2 e he
            · rw [List.mem_singleton.mp he]
              exact htf
        have hb := ih (L ++ [.composite t t2]) true (j + 1) hL' (by
          by_cases hali : (t.toCode == c) = true
          · rw [if_pos hali] at hfuel hjlt ⊢
            simp only [List.length_append, List.length_singleton]
            omega
          · rw [if_neg hali] at hfuel hjlt ⊢
            omega)
        refine ⟨hb.1, ?_, hb.2.2⟩
        rw [hb.2.1]
        simp only [List.length_append, List.length_singleton]
        omega

/-- A no-op completed inner run means every guard along the iterated list
held: the language already had an edge to each visited destination. -/
theorem innerLoop_fix (E : String → List ETrans) (c : String) (t : ETrans) :
    ∀ fuel L added j,
      (innerLoop E c t fuel L added j).1 = L →
      (innerLoop E c t fuel L added j).2.2 = true →
      ∀ j' t2, j ≤ j' →
        (if t.toCode == c then L else E t.toCode)[j']? = some t2 →
        (getTranslationOfCode L t2.toCode).isSome = true := by
  intro fuel
  induction fuel with
  | zero => intro L added j h1 h2; simp [innerLoop] at h2
  | succ fuel ih =>
    intro L added j h1 h2 j' t2 hj hj'
    rw [innerLoop] at h1 h2
    cases hM : (if t.toCode == c then L else E t.toCode)[j]? with
    | none =>
      have hlen : (if t.toCode == c then L else E t.toCode).length ≤ j := by
        by_contra h
        push_neg at h
        rw [List.getElem?_eq_getElem h] at hM
        cases hM
      have hj'len : j' < (if t.toCode == c then L else E t.toCode).length :=
        (List.getElem?_eq_some.mp hj').1
      omega
    | some u =>
      simp only [hM] at h1 h2
      by_cases hg : (L.find? (fun e => e.toCode == u.toCode)).isSome = true
      · rcases Nat.eq_or_lt_of_le hj with heq | hlt
        · subst heq
          rw [hM] at hj'
          cases hj'
          exact hg
        · rw [if_pos hg] at h1 h2
          exact ih L added (j + 1) h1 h2 j' t2 hlt hj'
      · rw [if_neg hg] at h1
        obtain ⟨s, hs⟩ := innerLoop_append E c t fuel (L ++ [.composite t u]) true (j + 1)
        rw [hs] at h1
        have := congrArg List.length h1
        simp at this

/-- The outer loop only ever appends to `L`. -/
theorem outerLoop_append (allCodes : List String) (E : String → List ETrans)
    (c : String) :
    ∀ fuel L added i, ∃ s, (outerLoop allCodes E c fuel L added i).1 = L ++ s := by
  intro fuel
  induction fuel with
  | zero => intro L added i; exact ⟨[], by simp [outerLoop]⟩
  | succ fuel ih =>
    intro L added i
    rw [outerLoop]
    split
    · exact ⟨[], by simp⟩
    · rename_i t hM
      obtain ⟨s1, hs1⟩ := innerLoop_append E c t (innerFuel allCodes E c t L) L added 0
      split
      · rename_i hok
        obtain ⟨s2, hs2⟩ := ih (innerLoop E c t (innerFuel allCodes E c t L) L added 0).1
          (innerLoop E c t (innerFuel allCodes E c t L) L added 0).2.1 (i + 1)
        exact ⟨s1 ++ s2, by rw [hs2, hs1, List.append_assoc]⟩
      · exact ⟨s1, hs1⟩

/-- The outer loop's flag is set exactly when it was already set or the pass
appended an edge. -/
theorem outerLoop_added_iff (allCodes : List String) (E : String → List ETrans)
    (c : String) :
    ∀ fuel L added i,
      ((outerLoop allCodes E c fuel L added i).2.1 = true
        ↔ (added = true
            ∨ L.length < (outerLoop allCodes E c fuel L added i).1.length)) := by
  intro fuel
  induction fuel with
  | zero => intro L added i; simp [outerLoop]
  | succ fuel ih =>
    intro L added i
    rw [outerLoop]
    split
    · simp
    · rename_i t hM
      have hin := innerLoop_added_iff E c t (innerFuel allCodes E c t L) L added 0
      obtain ⟨s1, hs1⟩ := innerLoop_append E c t (innerFuel allCodes E c t L) L added 0
      have e1 : (innerLoop E c t (innerFuel allCodes E c t L) L added 0).1.length
          = L.length + s1.length := by rw [hs1]; simp
      split
      · rename_i hok
        have hout := ih (innerLoop E c t (innerFuel allCodes E c t L) L added 0).1
          (innerLoop E c t (innerFuel allCodes E c t L) L added 0).2.1 (i + 1)
        obtain ⟨s2, hs2⟩ := outerLoop_append allCodes E c fuel
          (innerLoop E c t (innerFuel allCodes E c t L) L added 0).1
          (innerLoop E c t (innerFuel allCodes E c t L) L added 0).2.1 (i + 1)
        have e2 : (outerLoop allCodes E c fuel
              (innerLoop E c t (innerFuel allCodes E c t L) L added 0).1
              (innerLoop E c t (innerFuel allCodes E c t L) L added 0).2.1 (i + 1)).1.length
            = (innerLoop E c t (innerFuel allCodes E c t L) L added 0).1.length
              + s2.length := by rw [hs2]; simp
        rw [hout, hin]
        constructor
        · rintro ((h | h) | h)
          · exact Or.inl h
          · exact Or.inr (by omega)
          · exact Or.inr (by omega)
        · rintro (h | h)
          · exact Or.inl (Or.inl h)
          · rcases Nat.lt_or_ge L.length
              (innerLoop E c t (innerFuel allCodes E c t L) L added 0).1.length with h2 | h2
            · exact Or.inl (Or.inr h2)
            · exact Or.inr (by omega)
      · rename_i hok
        exact hin

/-- With enough fuel the outer loop finishes normally, preserves
`length + missCount` and preserves the edge invariant. -/
theorem outerLoop_spec (allCodes : List String) (E : String → List ETrans)
    (c : String) (hE : EnvOK allCodes E) :
    ∀ fuel L added i, EdgesOK allCodes c L →
      L.length - i + missCount allCodes L + 1 ≤ fuel →
      (outerLoop allCodes E c fuel L added i).2.2 = true ∧
      (outerLoop allCodes E c fuel L added i).1.length
          + missCount allCodes (outerLoop allCodes E c fuel L added i).1
        = L.length + missCount allCodes L ∧
      EdgesOK allCodes c (outerLoop allCodes E c fuel L added i).1 := by
  intro fuel
  induction fuel with
  | zero => intro L added i hL hfuel; omega
  | succ fuel ih =>
    intro L added i hL hfuel
    rw [outerLoop]
    split
    · exact ⟨rfl, rfl, hL⟩
    · rename_i t hM
      have hit : t ∈ L := by
        obtain ⟨h, hEq⟩ := List.getElem?_eq_some.mp hM
        rw [← hEq]
        exact List.getElem_mem h
      have hilt : i < L.length := (List.getElem?_eq_some.mp hM).1
      have hspec := innerLoop_spec allCodes E c t hE (hL.1 t hit) (hL.2 t hit)
        (innerFuel allCodes E c t L) L added 0 hL (by
          have := missCount_le allCodes L
          rw [innerFuel]
          omega)
      split
      · rename_i hok
        have h1 := hspec.2.1
        obtain ⟨s1, hs1⟩ := innerLoop_append E c t (innerFuel allCodes E c t L) L added 0
        have e1 : (innerLoop E c t (innerFuel allCodes E c t L) L added 0).1.length
            = L.length + s1.length := by rw [hs1]; simp
        have hrec := ih (innerLoop E c t (innerFuel allCodes E c t L) L added 0).1
          (innerLoop E c t (innerFuel allCodes E c t L) L added 0).2.1 (i + 1)
          hspec.2.2 (by omega)
        refine ⟨hrec.1, ?_, hrec.2.2⟩
        rw [hrec.2.1]
        exact hspec.2.1
      · rename_i hok
        exact absurd hspec.1 hok

/-- A no-op completed pass means every guard of the nested loops held. -/
theorem outerLoop_fix (allCodes : List String) (E : String → List ETrans)
    (c : String) :
    ∀ fuel L i,
      (outerLoop allCodes E c fuel L false i).1 = L →
      (outerLoop allCodes E c fuel L false i).2.1 = false →
      (outerLoop allCodes E c fuel L false i).2.2 = true →
      ∀ (i' : Nat) (t : ETrans), i ≤ i' → L[i']? = some t →
        ∀ (j' : Nat) (t2 : ETrans),
          (if t.toCode == c then L else E t.toCode)[j']? = some t2 →
          (getTranslationOfCode L t2.toCode).isSome = true := by
  intro fuel
  induction fuel with
  | zero => intro L i h1 h2 h3; simp [outerLoop] at h3
  | succ fuel ih =>
    intro L i h1 h2 h3 i' t hi hi' j' t2 hj'
    rw [outerLoop] at h1 h2 h3
    cases hM : L[i]? with
    | none =>
      have hi'lt : i' < L.length := (List.getElem?_eq_some.mp hi').1
      have hlen : L.length ≤ i := by
        by_contra h
        push_neg at h
        rw [List.getElem?_eq_getElem h] at hM
        cases hM
      omega
    | some u =>
      simp only [hM] at h1 h2 h3
      by_cases hok : (innerLoop E c u (innerFuel allCodes E c u L) L false 0).2.2 = true
      · rw [if_pos hok] at h1 h2 h3
        obtain ⟨s1, hs1⟩ := innerLoop_append E c u (innerFuel allCodes E c u L) L false 0
        obtain ⟨s2, hs2⟩ := outerLoop_append allCodes E c fuel
          (innerLoop E c u (innerFuel allCodes E c u L) L false 0).1
          (innerLoop E c u (innerFuel allCodes E c u L) L false 0).2.1 (i + 1)
        have hinnerL : (innerLoop E c u (innerFuel allCodes E c u L) L false 0).1 = L := by
          rw [hs2, hs1] at h1
          have hlen := congrArg List.length h1
          simp only [List.length_append] at hlen
          have hs1nil : s1 = [] := List.eq_nil_of_length_eq_zero (by omega)
          rw [hs1, hs1nil, List.append_nil]
        have hinadded : (innerLoop E c u (innerFuel allCodes E c u L) L false 0).2.1
            = false := by
          cases hb : (innerLoop E c u (innerFuel allCodes E c u L) L false 0).2.1 with
          | false => rfl
          | true =>
            rw [hb] at h2
            have h2' := (outerLoop_added_iff allCodes E c fuel
              (innerLoop E c u (innerFuel allCodes E c u L) L false 0).1 true (i + 1)).mpr
              (Or.inl rfl)
            rw [h2] at h2'
            cases h2'
        rcases Nat.eq_or_lt_of_le hi with heq | hlt
        · subst heq
          rw [hM] at hi'
          injection hi' with hut
          subst hut
          exact innerLoop_fix E c u (innerFuel allCodes E c u L) L false 0 hinnerL hok
            j' t2 (Nat.zero_le _) hj'
        · rw [hinnerL, hinadded] at h1 h2 h3
          exact ih L (i + 1) h1 h2 h3 i' t hlt hi' j' t2 hj'
      · rw [if_neg hok] at h3
        simp at h3

/-- The pass-fixpoint property of a closed `translations_from` list: for
every two-hop pivot reachable from it, an edge to that destination already
exists (the guard at lines 337 holds everywhere). -/
def FixedAt (E : String → List ETrans) (c : String) (L : List ETrans) : Prop :=
  ∀ t ∈ L, ∀ t2 ∈ (if t.toCode == c then L else E t.toCode),
    (getTranslationOfCode L t2.toCode).isSome = true

/-- The while loop only ever appends to `L`. -/
theorem whileLoop_append (allCodes : List String) (E : String → List ETrans)
    (c : String) :
    ∀ fuel L, ∃ s, (whileLoop allCodes E c fuel L).1 = L ++ s := by
  intro fuel
  induction fuel with
  | zero => intro L; exact ⟨[], by simp [whileLoop]⟩
  | succ fuel ih =>
    intro L
    rw [whileLoop]
    obtain ⟨s1, hs1⟩ := outerLoop_append allCodes E c (outerFuel allCodes L) L false 0
    split
    · split
      · obtain ⟨s2, hs2⟩ :=
          ih (outerLoop allCodes E c (outerFuel allCodes L) L false 0).1
        exact ⟨s1 ++ s2, by rw [hs2, hs1, List.append_assoc]⟩
      · exact ⟨s1, hs1⟩
    · exact ⟨s1, hs1⟩

/-- With fuel exceeding the miss count the while loop reaches its fixed
point: it finishes normally (flag `true`), only appends, preserves the edge
invariant, and its result satisfies the pass-fixpoint property. -/
theorem whileLoop_spec (allCodes : List String) (E : String → List ETrans)
    (c : String) (hE : EnvOK allCodes E) :
    ∀ fuel L, EdgesOK allCodes c L →
      missCount allCodes L + 1 ≤ fuel →
      (whileLoop allCodes E c fuel L).2 = true ∧
      (∃ s, (whileLoop allCodes E c fuel L).1 = L ++ s) ∧
      EdgesOK allCodes c (whileLoop allCodes E c fuel L).1 ∧
      FixedAt E c (whileLoop allCodes E c fuel L).1 := by
  intro fuel
  induction fuel with
  | zero => intro L hL hfuel; omega
  | succ fuel ih =>
    intro L hL hfuel
    have hpass := outerLoop_spec allCodes E c hE (outerFuel allCodes L) L false 0 hL (by
      have := missCount_le allCodes L
      rw [outerFuel]
      omega)
    obtain ⟨s1, hs1⟩ := outerLoop_append allCodes E c (outerFuel allCodes L) L false 0
    have e1 : (outerLoop allCodes E c (outerFuel allCodes L) L false 0).1.length
        = L.length + s1.length := by rw [hs1]; simp
    rw [whileLoop, if_pos hpass.1]
    by_cases hadd : (outerLoop allCodes E c (outerFuel allCodes L) L false 0).2.1 = true
    · rw [if_pos hadd]
      have hgrow : L.length
          < (outerLoop allCodes E c (outerFuel allCodes L) L false 0).1.length := by
        rcases (outerLoop_added_iff allCodes E c (outerFuel allCodes L) L false 0).mp hadd
          with h | h
        · cases h
        · exact h
      have hinv := hpass.2.1
      have hrec := ih (outerLoop allCodes E c (outerFuel allCodes L) L false 0).1
        hpass.2.2 (by omega)
      obtain ⟨s2, hs2⟩ := hrec.2.1
      exact ⟨hrec.1, ⟨s1 ++ s2, by rw [hs2, hs1, List.append_assoc]⟩,
        hrec.2.2.1, hrec.2.2.2⟩
    · rw [if_neg hadd]
      have hnogrow : ¬ L.length
          < (outerLoop allCodes E c (outerFuel allCodes L) L false 0).1.length := by
        intro h
        exact hadd ((outerLoop_added_iff allCodes E c (outerFuel allCodes L) L false 0).mpr
          (Or.inr h))
      have hs1nil : s1 = [] := List.eq_nil_of_length_eq_zero (by omega)
      have hLfix : (outerLoop allCodes E c (outerFuel allCodes L) L false 0).1 = L := by
        rw [hs1, hs1nil, List.append_nil]
      have haddf : (outerLoop allCodes E c (outerFuel allCodes L) L false 0).2.1 = false := by
        cases hb : (outerLoop allCodes E c (outerFuel allCodes L) L false 0).2.1 with
        | false => rfl
        | true => exact absurd hb hadd
      refine ⟨rfl, ⟨[], by rw [hLfix, List.append_nil]⟩, by rw [hLfix]; exact hL, ?_⟩
      rw [hLfix]
      intro t ht t2 ht2
      obtain ⟨i', hi'⟩ := List.mem_iff_getElem?.mp ht
      obtain ⟨j', hj'⟩ := List.mem_iff_getElem?.mp ht2
      exact outerLoop_fix allCodes E c (outerFuel allCodes L) L 0 hLfix haddf hpass.1
        i' t (Nat.zero_le _) hi' j' t2 hj'

/-- The function `closeLang` finishes normally, only appends, preserves the invariant and
reaches the pass fixpoint. -/
theorem closeLang_spec (allCodes : List String) (E : String → List ETrans)
    (c : String) (hE : EnvOK allCodes E) (L : List ETrans)
    (hL : EdgesOK allCodes c L) :
    (closeLang allCodes E c L).2 = true ∧
    (∃ s, (closeLang allCodes E c L).1 = L ++ s) ∧
    EdgesOK allCodes c (closeLang allCodes E c L).1 ∧
    FixedAt E c (closeLang allCodes E c L).1 := by
  apply whileLoop_spec allCodes E c hE (allCodes.length + 1) L hL
  have := missCount_le allCodes L
  omega

/-- The function `closeLang` only ever appends to the language's edge list. -/
theorem closeLang_append (allCodes : List String) (E : String → List ETrans)
    (c : String) (L : List ETrans) :
    ∃ s, (closeLang allCodes E c L).1 = L ++ s :=
  whileLoop_append allCodes E c (allCodes.length + 1) L

/-- Updating one language's list with an invariant-preserving value keeps
the whole-state invariant. -/
theorem envOK_update (allCodes : List String) (E : String → List ETrans)
    (hE : EnvOK allCodes E) (c : String) (L : List ETrans)
    (hL : EdgesOK allCodes c L) :
    EnvOK allCodes (Function.update E c L) := by
  intro d hd
  by_cases hdc : d = c
  · subst hdc
    rw [Function.update_same]
    exact hL
  · rw [Function.update_noteq hdc]
    exact hE d hd

/-- Codes outside the worklist keep their edge lists. -/
theorem closureFold_other (allCodes : List String) :
    ∀ codes E ok d, d ∉ codes →
      (closureFold allCodes codes E ok).1 d = E d := by
  intro codes
  induction codes with
  | nil => intro E ok d hd; rfl
  | cons c rest ih =>
    intro E ok d hd
    rw [closureFold]
    rw [ih _ _ d (fun h => hd (List.mem_cons_of_mem _ h))]
    exact Function.update_noteq
      (fun h => hd (by rw [h]; exact List.mem_cons_self c rest)) _ _

/-- The fold only ever appends to any language's edge list. -/
theorem closureFold_sub (allCodes : List String) :
    ∀ codes E ok d, ∃ s, (closureFold allCodes codes E ok).1 d = E d ++ s := by
  intro codes
  induction codes with
  | nil => intro E ok d; exact ⟨[], by simp [closureFold]⟩
  | cons c rest ih =>
    intro E ok d
    rw [closureFold]
    obtain ⟨s2, hs2⟩ := ih (Function.update E c (closeLang allCodes E c (E c)).1)
      (ok && (closeLang allCodes E c (E c)).2) d
    by_cases hdc : d = c
    · subst hdc
      obtain ⟨s1, hs1⟩ := closeLang_append allCodes E d (E d)
      rw [hs2, Function.update_same, hs1]
      exact ⟨s1 ++ s2, by rw [List.append_assoc]⟩
    · rw [hs2, Function.update_noteq hdc]
      exact ⟨s2, rfl⟩

/-- C3's engine: every closure loop of the fold finishes normally. -/
theorem closureFold_ok (allCodes : List String) :
    ∀ codes E, (∀ x ∈ codes, x ∈ allCodes) → EnvOK allCodes E →
      (closureFold allCodes codes E true).2 = true := by
  intro codes
  induction codes with
  | nil => intro E _ _; rfl
  | cons c rest ih =>
    intro E hsub hE
    rw [closureFold]
    have hspec := closeLang_spec allCodes E c hE (E c)
      (hE c (hsub c (List.mem_cons_self _ _)))
    rw [hspec.1]
    exact ih (Function.update E c (closeLang allCodes E c (E c)).1)
      (fun x hx => hsub x (List.mem_cons_of_mem _ hx))
      (envOK_update allCodes E hE c _ hspec.2.2.1)

/-- After the fold, each processed language's final list is a pass fixpoint
with respect to a snapshot of the state that extends the initial one. -/
theorem closureFold_fixed (allCodes : List String) :
    ∀ codes E ok, codes.Nodup → (∀ x ∈ codes, x ∈ allCodes) → EnvOK allCodes E →
      ∀ c ∈ codes,
      ∃ Ec : String → List ETrans,
        (∀ d, ∃ s, Ec d = E d ++ s) ∧
        FixedAt Ec c ((closureFold allCodes codes E ok).1 c) ∧
        EdgesOK allCodes c ((closureFold allCodes codes E ok).1 c) ∧
        (∃ s, (closureFold allCodes codes E ok).1 c = E c ++ s) := by
  intro codes
  induction codes with
  | nil => intro E ok _ _ _ c hc; cases hc
  | cons c0 rest ih =>
    intro E ok hnd hsub hE c hc
    rw [closureFold]
    have hspec := closeLang_spec allCodes E c0 hE (E c0)
      (hE c0 (hsub c0 (List.mem_cons_self _ _)))
    rcases List.mem_cons.mp hc with heq | hmem
    · subst heq
      have hother : (closureFold allCodes rest
            (Function.update E c (closeLang allCodes E c (E c)).1)
            (ok && (closeLang allCodes E c (E c)).2)).1 c
          = (closeLang allCodes E c (E c)).1 := by
        rw [closureFold_other allCodes rest _ _ c (List.nodup_cons.mp hnd).1]
        exact Function.update_same _ _ _
      refine ⟨E, fun d => ⟨[], by simp⟩, ?_, ?_, ?_⟩
      · rw [hother]
        exact hspec.2.2.2
      · rw [hother]
        exact hspec.2.2.1
      · rw [hother]
        exact hspec.2.1
    · have hE2 : EnvOK allCodes
          (Function.update E c0 (closeLang allCodes E c0 (E c0)).1) :=
        envOK_update allCodes E hE c0 _ hspec.2.2.1
      obtain ⟨Ec, hEc1, hEc2, hEc3, hEc4⟩ :=
        ih (Function.update E c0 (closeLang allCodes E c0 (E c0)).1)
          (ok && (closeLang allCodes E c0 (E c0)).2)
          (List.nodup_cons.mp hnd).2
          (fun x hx => hsub x (List.mem_cons_of_mem _ hx)) hE2 c hmem
      have hcc0 : c ≠ c0 := fun h => (List.nodup_cons.mp hnd).1 (h ▸ hmem)
      refine ⟨Ec, ?_, hEc2, hEc3, ?_⟩
      · intro d
        obtain ⟨s2, hs2⟩ := hEc1 d
        by_cases hdc : d = c0
        · subst hdc
          obtain ⟨s1, hs1⟩ := closeLang_append allCodes E d (E d)
          rw [hs2, Function.update_same, hs1]
          exact ⟨s1 ++ s2, by rw [List.append_assoc]⟩
        · rw [hs2, Function.update_noteq hdc]
          exact ⟨s2, rfl⟩
      · obtain ⟨s2, hs2⟩ := hEc4
        rw [hs2, Function.update_noteq hcc0]
        exact ⟨s2, rfl⟩

/-! ### Properties of the language collection and the built graph -/

/-- The codes of the languages discovered by the builder. -/
def langCodes (pkgs : List Package) : List String :=
  (collectLangs (translatePackages pkgs)).map Prod.fst

/-- The final `translations_from` map after the pivot closure. -/
def finalEdges (pkgs : List Package) : String → List ETrans :=
  (closureFold (langCodes pkgs) (langCodes pkgs)
    (fun c => initialEdges (translatePackages pkgs) c) true).1

theorem getInstalledLanguages_eq (pkgs : List Package) :
    getInstalledLanguages pkgs
      = reorderLanguages ((collectLangs (translatePackages pkgs)).map
          fun cn => ⟨cn.1, cn.2, finalEdges pkgs cn.1⟩) := rfl

theorem addLang_mem_fst (acc : List (String × String)) (code name : String) :
    code ∈ (addLang acc code name).map Prod.fst := by
  rw [addLang]
  split
  · rename_i h
    obtain ⟨cn, hcn, hb⟩ := List.any_eq_true.mp h
    exact List.mem_map.mpr ⟨cn, hcn, (eq_of_beq hb).symm ▸ rfl⟩
  · simp

theorem addLang_mono {acc : List (String × String)} {cn : String × String}
    (h : cn ∈ acc) (code name : String) : cn ∈ addLang acc code name := by
  rw [addLang]
  split
  · exact h
  · exact List.mem_append_left _ h

theorem addLang_fst_mono {acc : List (String × String)} {x : String}
    (h : x ∈ acc.map Prod.fst) (code name : String) :
    x ∈ (addLang acc code name).map Prod.fst := by
  obtain ⟨cn, hcn, hx⟩ := List.mem_map.mp h
  exact List.mem_map.mpr ⟨cn, addLang_mono hcn code name, hx⟩

theorem addLang_nodup {acc : List (String × String)}
    (h : (acc.map Prod.fst).Nodup) (code name : String) :
    ((addLang acc code name).map Prod.fst).Nodup := by
  rw [addLang]
  split
  · exact h
  · rename_i hany
    rw [List.map_append]
    apply List.Nodup.append h (by simp)
    intro x hx hx'
    simp only [List.map_cons, List.map_nil, List.mem_singleton] at hx'
    subst hx'
    obtain ⟨cn, hcn, hfst⟩ := List.mem_map.mp hx
    exact (List.any_eq_true.not.mp hany) ⟨cn, hcn, by rw [hfst]; exact beq_self_eq_true _⟩

theorem collectLangs_fold_nodup (l : List Package) :
    ∀ acc, (acc.map Prod.fst).Nodup →
      ((l.foldl (fun acc p =>
          addLang (addLang acc p.from_code p.from_name) p.to_code p.to_name) acc).map
        Prod.fst).Nodup := by
  induction l with
  | nil => intro acc h; exact h
  | cons p rest ih =>
    intro acc h
    exact ih _ (addLang_nodup (addLang_nodup h _ _) _ _)

theorem collectLangs_fold_mono (l : List Package) :
    ∀ acc x, x ∈ acc.map Prod.fst →
      x ∈ ((l.foldl (fun acc p =>
          addLang (addLang acc p.from_code p.from_name) p.to_code p.to_name) acc).map
        Prod.fst) := by
  induction l with
  | nil => intro acc x h; exact h
  | cons p rest ih =>
    intro acc x h
    exact ih _ x (addLang_fst_mono (addLang_fst_mono h _ _) _ _)

theorem collectLangs_fold_cover (l : List Package) :
    ∀ acc p, p ∈ l →
      p.from_code ∈ ((l.foldl (fun acc p =>
          addLang (addLang acc p.from_code p.from_name) p.to_code p.to_name) acc).map
        Prod.fst) ∧
      p.to_code ∈ ((l.foldl (fun acc p =>
          addLang (addLang acc p.from_code p.from_name) p.to_code p.to_name) acc).map
        Prod.fst) := by
  induction l with
  | nil => intro acc p h; cases h
  | cons q rest ih =>
    intro acc p hp
    rcases List.mem_cons.mp hp with heq | hmem
    · subst heq
      constructor
      · exact collectLangs_fold_mono rest _ _
          (addLang_fst_mono (addLang_mem_fst acc _ _) _ _)
      · exact collectLangs_fold_mono rest _ _ (addLang_mem_fst _ _ _)
    · exact ih _ p hmem

theorem langCodes_nodup (pkgs : List Package) : (langCodes pkgs).Nodup :=
  collectLangs_fold_nodup (translatePackages pkgs) [] (by simp)

theorem langCodes_cover (pkgs : List Package) (p : Package)
    (hp : p ∈ translatePackages pkgs) :
    p.from_code ∈ langCodes pkgs ∧ p.to_code ∈ langCodes pkgs :=
  collectLangs_fold_cover (translatePackages pkgs) [] p hp

theorem mem_initialEdges (tpkgs : List Package) (c : String) (e : ETrans) :
    e ∈ initialEdges tpkgs c ↔
      ((∃ p ∈ tpkgs, p.from_code = c ∧ e = .package p.from_code p.to_code p.hypFun)
        ∨ e = .identity c) := by
  rw [initialEdges, List.mem_append]
  constructor
  · rintro (h | h)
    · obtain ⟨p, hp, hpe⟩ := List.mem_filterMap.mp h
      by_cases hc : (p.from_code == c) = true
      · rw [if_pos hc] at hpe
        exact Or.inl ⟨p, hp, eq_of_beq hc, (Option.some_inj.mp hpe).symm⟩
      · rw [if_neg hc] at hpe
        cases hpe
    · exact Or.inr (List.mem_singleton.mp h)
  · rintro (⟨p, hp, hfrom, rfl⟩ | rfl)
    · refine Or.inl (List.mem_filterMap.mpr ⟨p, hp, ?_⟩)
      rw [if_pos (by rw [hfrom]; exact beq_self_eq_true _)]
    · exact Or.inr (List.mem_singleton.mpr rfl)

/-- The pre-closure state satisfies the edge invariant. -/
theorem initial_envOK (pkgs : List Package) :
    EnvOK (langCodes pkgs) (fun c => initialEdges (translatePackages pkgs) c) := by
  intro d hd
  constructor
  · intro e he
    rcases (mem_initialEdges _ d e).mp he with ⟨p, hp, hfrom, rfl⟩ | rfl
    · exact (langCodes_cover pkgs p hp).2
    · exact hd
  · intro e he
    rcases (mem_initialEdges _ d e).mp he with ⟨p, hp, hfrom, rfl⟩ | rfl
    · exact hfrom
    · rfl

/-- The English-first/name-sort post-processing only permutes the list. -/
theorem reorder_perm (langs : List GLanguage) :
    List.Perm (reorderLanguages langs) langs := by
  rw [reorderLanguages]
  split
  · exact List.perm_insertionSort _ _
  · rename_i i hif
    split
    · exact List.perm_insertionSort _ _
    · rename_i en hen
      obtain ⟨hilt, hget⟩ := List.getElem?_eq_some.mp hen
      have h2 : List.Perm (en :: sortByName (langs.eraseIdx i))
          (en :: langs.eraseIdx i) := (List.perm_insertionSort _ _).cons en
      refine h2.trans ?_
      rw [List.eraseIdx_eq_take_drop_succ]
      refine List.Perm.trans List.perm_middle.symm ?_
      rw [← hget, List.getElem_cons_drop, List.take_append_drop]

theorem mem_getInstalledLanguages (pkgs : List Package) (l : GLanguage) :
    l ∈ getInstalledLanguages pkgs ↔
      ∃ cn ∈ collectLangs (translatePackages pkgs),
        l = ⟨cn.1, cn.2, finalEdges pkgs cn.1⟩ := by
  rw [getInstalledLanguages_eq, (reorder_perm _).mem_iff]
  constructor
  · intro h
    obtain ⟨cn, hcn, hl⟩ := List.mem_map.mp h
    exact ⟨cn, hcn, hl.symm⟩
  · rintro ⟨cn, hcn, rfl⟩
    exact List.mem_map.mpr ⟨cn, hcn, rfl⟩

theorem filter_map_singleton :
    ∀ (cns : List (String × String)) (F : String → List ETrans) (c nm : String),
      (cns.map Prod.fst).Nodup → (c, nm) ∈ cns →
      ((cns.map (fun cn => (⟨cn.1, cn.2, F cn.1⟩ : GLanguage))).filter
        (fun l => l.code == c)) = [⟨c, nm, F c⟩] := by
  intro cns
  induction cns with
  | nil => intro F c nm _ h; cases h
  | cons a rest ih =>
    intro F c nm hnd hmem
    have hnd' := hnd
    rw [List.map_cons, List.nodup_cons] at hnd'
    rcases List.mem_cons.mp hmem with heq | hmem'
    · rw [List.map_cons, List.filter_cons, if_pos (by rw [← heq]; exact beq_self_eq_true _)]
      have hrest : (rest.map (fun cn => (⟨cn.1, cn.2, F cn.1⟩ : GLanguage))).filter
          (fun l => l.code == c) = [] := by
        rw [List.filter_eq_nil_iff]
        intro l hl
        obtain ⟨cn, hcn, hcl⟩ := List.mem_map.mp hl
        intro hb
        apply hnd'.1
        rw [← heq]
        simp only [← hcl] at hb
        exact (eq_of_beq hb) ▸ List.mem_map.mpr ⟨cn, hcn, rfl⟩
      rw [hrest, ← heq]
    · have hc : c ∈ rest.map Prod.fst := List.mem_map.mpr ⟨(c, nm), hmem', rfl⟩
      have hac : (a.1 == c) = false := by
        by_contra h
        rw [Bool.not_eq_false] at h
        exact hnd'.1 ((eq_of_beq h) ▸ hc)
      rw [List.map_cons, List.filter_cons, if_neg (by simp [hac])]
      exact ih F c nm hnd'.2 hmem'

theorem getLanguageFromCode_eq (pkgs : List Package) (c nm : String)
    (hmem : (c, nm) ∈ collectLangs (translatePackages pkgs)) :
    getLanguageFromCode pkgs c = .ok ⟨c, nm, finalEdges pkgs c⟩ := by
  rw [getLanguageFromCode]
  have hsing := filter_map_singleton (collectLangs (translatePackages pkgs))
    (finalEdges pkgs) c nm (langCodes_nodup pkgs) hmem
  have hperm : List.Perm
      ((getInstalledLanguages pkgs).filter (fun l => l.code == c))
      [⟨c, nm, finalEdges pkgs c⟩] := by
    rw [getInstalledLanguages_eq, ← hsing]
    exact (reorder_perm _).filter _
  rw [List.perm_singleton.mp hperm]
  rfl

theorem getLanguageFromCode_ok (pkgs : List Package) (code : String)
    (l : GLanguage) (h : getLanguageFromCode pkgs code = .ok l) :
    l.code = code ∧ l ∈ getInstalledLanguages pkgs := by
  rw [getLanguageFromCode] at h
  cases hf : (getInstalledLanguages pkgs).filter (fun x => x.code == code) with
  | nil => rw [hf] at h; cases h
  | cons a rest =>
    rw [hf] at h
    simp only [List.head?] at h
    have ha : a ∈ (getInstalledLanguages pkgs).filter (fun x => x.code == code) := by
      rw [hf]
      exact List.mem_cons_self _ _
    rw [List.mem_filter] at ha
    injection h with h2
    rw [← h2]
    exact ⟨eq_of_beq ha.2, ha.1⟩

theorem getLanguageFromCode_error (pkgs : List Package) (code : String)
    (h : ∀ l ∈ getInstalledLanguages pkgs, l.code ≠ code) :
    getLanguageFromCode pkgs code = .error "IndexError: list index out of range" := by
  rw [getLanguageFromCode]
  have hf : (getInstalledLanguages pkgs).filter (fun x => x.code == code) = [] := by
    rw [List.filter_eq_nil_iff]
    intro l hl
    simp [h l hl]
  rw [hf]
  rfl

theorem getLanguageFromCode_ok_of_mem (pkgs : List Package) (code : String)
    (h : ∃ l ∈ getInstalledLanguages pkgs, l.code = code) :
    ∃ l, getLanguageFromCode pkgs code = .ok l := by
  rw [getLanguageFromCode]
  obtain ⟨l, hl, hc⟩ := h
  cases hf : (getInstalledLanguages pkgs).filter (fun x => x.code == code) with
  | nil =>
    rw [List.filter_eq_nil_iff] at hf
    exact absurd (by simp [hc]) (hf l hl)
  | cons a rest =>
    exact ⟨a, rfl⟩

/-! ### Settling C3 and C2 -/

/-- C3: for every finite list of discovered packages the pivot-closure loop
in `get_installed_languages` terminates: each language gains at most one
outgoing edge per destination (appends are guarded by
`get_translation(...) is None`), the set of language codes is finite, and a
full pass adding no edge ends the while loop.  The builder's loops, run
with fuel bounded by that argument, all finish normally (never exhausting
the fuel), which `buildGraph`'s flag records. -/
theorem closure_terminates (pkgs : List Package) : (buildGraph pkgs).2 = true :=
  closureFold_ok (langCodes pkgs) (langCodes pkgs)
    (fun c => initialEdges (translatePackages pkgs) c)
    (fun _ hx => hx) (initial_envOK pkgs)

/-- C2: in the OpenNMT graph, whenever languages `L` and `N` are connected
by a path of direct package edges (identity edges are self-loops, so paths
through them reduce to this reflexive-transitive closure), the built graph
gives `L.get_translation(N)` a non-absent edge from `L` to `N`. -/
theorem closure_reachability (pkgs : List Package) (L N : String)
    (hL : L ∈ langCodes pkgs)
    (hpath : Relation.ReflTransGen
      (fun a b => ∃ p ∈ translatePackages pkgs, p.from_code = a ∧ p.to_code = b)
      L N) :
    ∃ lang ∈ getInstalledLanguages pkgs, lang.code = L ∧
      ∃ e, getTranslationOfCode lang.translations_from N = some e ∧
        e.fromCode = L ∧ e.toCode = N := by
  obtain ⟨Ec, hEc1, hfix, hinv, hsub⟩ := closureFold_fixed (langCodes pkgs)
    (langCodes pkgs) (fun c => initialEdges (translatePackages pkgs) c) true
    (langCodes_nodup pkgs) (fun _ hx => hx) (initial_envOK pkgs) L hL
  have hbase : (getTranslationOfCode (finalEdges pkgs L) L).isSome = true := by
    apply List.find?_isSome.mpr
    obtain ⟨s, hs⟩ := hsub
    refine ⟨.identity L, ?_, beq_self_eq_true _⟩
    show ETrans.identity L ∈ finalEdges pkgs L
    rw [show finalEdges pkgs L = initialEdges (translatePackages pkgs) L ++ s from hs]
    exact List.mem_append_left _ ((mem_initialEdges _ _ _).mpr (Or.inr rfl))
  have hstep : ∀ a b, (getTranslationOfCode (finalEdges pkgs L) a).isSome = true →
      (∃ p ∈ translatePackages pkgs, p.from_code = a ∧ p.to_code = b) →
      (getTranslationOfCode (finalEdges pkgs L) b).isSome = true := by
    intro a b ha hab
    obtain ⟨p, hp, hpa, hpb⟩ := hab
    obtain ⟨t, htmem, htb⟩ := List.find?_isSome.mp ha
    have hdirect : (ETrans.package p.from_code p.to_code p.hypFun) ∈
        (if t.toCode == L then finalEdges pkgs L else Ec t.toCode) := by
      by_cases hali : (t.toCode == L) = true
      · rw [if_pos hali]
        obtain ⟨s, hs⟩ := hsub
        show ETrans.package p.from_code p.to_code p.hypFun ∈ finalEdges pkgs L
        rw [show finalEdges pkgs L = initialEdges (translatePackages pkgs) L ++ s from hs]
        apply List.mem_append_left
        apply (mem_initialEdges _ _ _).mpr
        refine Or.inl ⟨p, hp, ?_, rfl⟩
        rw [hpa]
        exact (eq_of_beq htb).symm.trans (eq_of_beq hali)
      · rw [if_neg hali]
        obtain ⟨s, hs⟩ := hEc1 t.toCode
        rw [hs]
        apply List.mem_append_left
        show ETrans.package p.from_code p.to_code p.hypFun
          ∈ initialEdges (translatePackages pkgs) t.toCode
        apply (mem_initialEdges _ _ _).mpr
        refine Or.inl ⟨p, hp, ?_, rfl⟩
        rw [hpa]
        exact (eq_of_beq htb).symm
    have hres := hfix t htmem _ hdirect
    have hres' : (getTranslationOfCode (finalEdges pkgs L) p.to_code).isSome = true := hres
    rw [hpb] at hres'
    exact hres'
  have hreach : (getTranslationOfCode (finalEdges pkgs L) N).isSome = true := by
    induction hpath with
    | refl => exact hbase
    | tail hab hbc ih => exact hstep _ _ ih hbc
  obtain ⟨cn, hcn, hcnL⟩ := List.mem_map.mp hL
  obtain ⟨e, he⟩ := Option.isSome_iff_exists.mp hreach
  have he' : List.find? (fun x => x.toCode == N) (finalEdges pkgs L) = some e := he
  refine ⟨⟨L, cn.2, finalEdges pkgs L⟩, ?_, rfl, e, he, ?_, ?_⟩
  · apply (mem_getInstalledLanguages pkgs _).mpr
    refine ⟨cn, hcn, ?_⟩
    rw [← hcnL]
  · exact hinv.2 e (List.mem_of_find?_eq_some he')
  · have hpred : (e.toCode == N) = true :=
      @List.find?_some ETrans (fun x => x.toCode == N) e (finalEdges pkgs L) he'
    exact eq_of_beq hpred

/-- A trivial packaged-model behaviour for concrete examples. -/
def demoF : String → Nat → List Hypothesis := fun _ _ => []

/-- A discovered en→es package. -/
def demoPkg1 : Package := ⟨"translate", "en", "English", "es", "Spanish", demoF⟩

/-- A discovered es→fr package. -/
def demoPkg2 : Package := ⟨"translate", "es", "Spanish", "fr", "French", demoF⟩

/-- A two-package discovery: en→es and es→fr only. -/
def demoPkgs : List Package := [demoPkg1, demoPkg2]

/-- C2 (witness): with direct edges en→es and es→fr only, the closed graph
gives English a non-absent edge to French. -/
theorem closure_reachability_witness :
    ∃ lang ∈ getInstalledLanguages demoPkgs, lang.code = "en" ∧
      ∃ e, getTranslationOfCode lang.translations_from "fr" = some e ∧
        e.fromCode = "en" ∧ e.toCode = "fr" :=
  closure_reachability demoPkgs "en" "fr" (by decide)
    (Relation.ReflTransGen.tail
      (Relation.ReflTransGen.single
        ⟨demoPkg1, by
          rw [show translatePackages demoPkgs = [demoPkg1, demoPkg2] from rfl]
          exact List.mem_cons_self _ _, rfl, rfl⟩)
      ⟨demoPkg2, by
        rw [show translatePackages demoPkgs = [demoPkg1, demoPkg2] from rfl]
        exact List.mem_cons_of_mem _ (List.mem_cons_self _ _), rfl, rfl⟩)

/-! ### Uniqueness of destinations (C5) -/

/-- The inner loop preserves distinctness of destination codes: appends are
guarded by the absence of an edge to that destination. -/
theorem innerLoop_nodup (E : String → List ETrans) (c : String) (t : ETrans) :
    ∀ fuel L added j, (L.map ETrans.toCode).Nodup →
      ((innerLoop E c t fuel L added j).1.map ETrans.toCode).Nodup := by
  intro fuel
  induction fuel with
  | zero => intro L added j h; simpa [innerLoop] using h
  | succ fuel ih =>
    intro L added j h
    rw [innerLoop]
    split
    · exact h
    · split
      · exact ih L added (j + 1) h
      · rename_i t2 hM hg
        apply ih _ true (j + 1)
        rw [List.map_append]
        apply List.Nodup.append h (by simp)
        intro x hx hx'
        simp only [List.map_cons, List.map_nil, List.mem_singleton] at hx'
        subst hx'
        have hnone : List.find? (fun e => e.toCode == t2.toCode) L = none := by
          cases hf : List.find? (fun e => e.toCode == t2.toCode) L with
          | none => rfl
          | some y => exact absurd (by rw [hf]; rfl) hg
        rw [List.find?_eq_none] at hnone
        obtain ⟨e0, he0, he0x⟩ := List.mem_map.mp hx
        exact hnone e0 he0 (by rw [he0x]; exact beq_self_eq_true _)

theorem outerLoop_nodup (allCodes : List String) (E : String → List ETrans)
    (c : String) :
    ∀ fuel L added i, (L.map ETrans.toCode).Nodup →
      ((outerLoop allCodes E c fuel L added i).1.map ETrans.toCode).Nodup := by
  intro fuel
  induction fuel with
  | zero => intro L added i h; simpa [outerLoop] using h
  | succ fuel ih =>
    intro L added i h
    rw [outerLoop]
    split
    · exact h
    · rename_i t hM
      split
      · exact ih _ _ (i + 1)
          (innerLoop_nodup E c t (innerFuel allCodes E c t L) L added 0 h)
      · exact innerLoop_nodup E c t (innerFuel allCodes E c t L) L added 0 h

theorem whileLoop_nodup (allCodes : List String) (E : String → List ETrans)
    (c : String) :
    ∀ fuel L, (L.map ETrans.toCode).Nodup →
      ((whileLoop allCodes E c fuel L).1.map ETrans.toCode).Nodup := by
  intro fuel
  induction fuel with
  | zero => intro L h; simpa [whileLoop] using h
  | succ fuel ih =>
    intro L h
    rw [whileLoop]
    split
    · split
      · exact ih _ (outerLoop_nodup allCodes E c (outerFuel allCodes L) L false 0 h)
      · exact outerLoop_nodup allCodes E c (outerFuel allCodes L) L false 0 h
    · exact outerLoop_nodup allCodes E c (outerFuel allCodes L) L false 0 h

theorem closureFold_nodup (allCodes : List String) :
    ∀ codes E ok, (∀ d, ((E d).map ETrans.toCode).Nodup) →
      ∀ d, (((closureFold allCodes codes E ok).1 d).map ETrans.toCode).Nodup := by
  intro codes
  induction codes with
  | nil => intro E ok h d; exact h d
  | cons c rest ih =>
    intro E ok h d
    rw [closureFold]
    apply ih
    intro d'
    by_cases hdc : d' = c
    · subst hdc
      rw [Function.update_same]
      exact whileLoop_nodup allCodes E d' (allCodes.length + 1) (E d') (h d')
    · rw [Function.update_noteq hdc]
      exact h d'

theorem pkgEdges_dests (tpkgs : List Package) (c : String) :
    ((tpkgs.filterMap fun q =>
      if q.from_code == c then some (ETrans.package q.from_code q.to_code q.hypFun)
      else none).map ETrans.toCode)
      = (tpkgs.filter (fun q => q.from_code == c)).map Package.to_code := by
  induction tpkgs with
  | nil => rfl
  | cons q rest ih =>
    by_cases h : (q.from_code == c) = true
    · rw [List.filterMap_cons_some (by rw [if_pos h]),
        @List.filter_cons_of_pos Package (fun q => q.from_code == c) q rest h,
        List.map_cons, List.map_cons, ih]
      rfl
    · rw [List.filterMap_cons_none (by rw [if_neg h]),
        @List.filter_cons_of_neg Package (fun q => q.from_code == c) q rest h]
      exact ih

/-- When no two translate packages share a language pair and none is a
self-loop, every pre-closure edge list has pairwise-distinct destinations. -/
theorem initial_destsNodup (pkgs : List Package)
    (hpairs : (translatePackages pkgs).Pairwise
      (fun p q => p.from_code ≠ q.from_code ∨ p.to_code ≠ q.to_code))
    (hself : ∀ p ∈ translatePackages pkgs, p.from_code ≠ p.to_code)
    (c : String) :
    ((initialEdges (translatePackages pkgs) c).map ETrans.toCode).Nodup := by
  rw [initialEdges, List.map_append, pkgEdges_dests]
  have hfil : ((translatePackages pkgs).filter
      (fun q => q.from_code == c)).Pairwise (fun p q => p.to_code ≠ q.to_code) := by
    apply List.Pairwise.imp_of_mem ?_
      (List.Pairwise.sublist (List.filter_sublist _) hpairs)
    intro p q hp hq hpq
    rcases hpq with h | h
    · exact absurd (((eq_of_beq (List.mem_filter.mp hp).2).trans
        (eq_of_beq (List.mem_filter.mp hq).2).symm)) h
    · exact h
  apply List.Nodup.append
  · exact List.Pairwise.map _ (fun a b h => h) hfil
  · simp
  · intro x hx hx'
    simp only [List.map_cons, List.map_nil, List.mem_singleton] at hx'
    subst hx'
    obtain ⟨q, hq, hqx⟩ := List.mem_map.mp hx
    rw [List.mem_filter] at hq
    exact hself q hq.1 ((eq_of_beq hq.2).trans hqx.symm)

/-- C5 (amended): provided no two discovered translate packages share the
same `(from_code, to_code)` pair and no package is a self-loop, no two
edges in any `Language.translations_from` list of the built graph target
the same destination, and every edge's source is the owning language — so
`(from_lang, to_lang)` pairs are unique within each list.  (Without those
provisos a pair of identical direct packages, or a self-loop package next
to the identity edge, produces duplicate pairs; only *synthesized* edges
are guarded by an existence check.) -/
theorem translations_from_unique (pkgs : List Package)
    (hpairs : (translatePackages pkgs).Pairwise
      (fun p q => p.from_code ≠ q.from_code ∨ p.to_code ≠ q.to_code))
    (hself : ∀ p ∈ translatePackages pkgs, p.from_code ≠ p.to_code) :
    ∀ lang ∈ getInstalledLanguages pkgs,
      (lang.translations_from.map ETrans.toCode).Nodup ∧
      ∀ e ∈ lang.translations_from, e.fromCode = lang.code := by
  intro lang hmem
  obtain ⟨cn, hcn, rfl⟩ := (mem_getInstalledLanguages pkgs lang).mp hmem
  constructor
  · exact closureFold_nodup (langCodes pkgs) (langCodes pkgs)
      (fun c => initialEdges (translatePackages pkgs) c) true
      (fun d => initial_destsNodup pkgs hpairs hself d) cn.1
  · have hc1 : cn.1 ∈ langCodes pkgs := List.mem_map.mpr ⟨cn, hcn, rfl⟩
    obtain ⟨Ec, hEc1, hfix, hinv, hsub⟩ := closureFold_fixed (langCodes pkgs)
      (langCodes pkgs) (fun c => initialEdges (translatePackages pkgs) c) true
      (langCodes_nodup pkgs) (fun _ hx => hx) (initial_envOK pkgs) cn.1 hc1
    exact hinv.2

/-- C5 (counterexample): two discovered packages with the same pair
(en→es twice) put two edges to "es" in English's `translations_from` — the
builder never deduplicates *direct* edges, so the claimed uniqueness for
"direct package edges … alike" is false. -/
theorem translations_from_unique_cex :
    ((getInstalledLanguages [demoPkg1, demoPkg1]).head?.map
      (fun lang => lang.translations_from.map ETrans.toCode))
      = some ["es", "es", "en"] ∧
    ¬ (["es", "es", "en"] : List String).Nodup :=
  ⟨by decide, by decide⟩

/-- C5 (witness): on the two-package demo discovery (distinct pairs, no
self-loops) applied at the English node of the built graph. -/
theorem translations_from_unique_witness :
    (((⟨"en", "English", finalEdges demoPkgs "en"⟩ : GLanguage)).translations_from.map
      ETrans.toCode).Nodup ∧
    ∀ e ∈ (⟨"en", "English", finalEdges demoPkgs "en"⟩ : GLanguage).translations_from,
      e.fromCode = (⟨"en", "English", finalEdges demoPkgs "en"⟩ : GLanguage).code :=
  translations_from_unique demoPkgs (by decide) (by decide)
    ⟨"en", "English", finalEdges demoPkgs "en"⟩
    ((mem_getInstalledLanguages demoPkgs _).mpr
      ⟨("en", "English"), by decide, rfl⟩)

/-! ### Direct edges are never replaced (C6) -/

theorem find?_append_some {α : Type} {p : α → Bool} {l1 l2 : List α} {x : α}
    (h : l1.find? p = some x) : (l1 ++ l2).find? p = some x := by
  rw [List.find?_append, h]
  rfl

theorem find?_pkgEdges :
    ∀ (tpkgs : List Package) (Lc M : String) (p : Package),
      tpkgs.find? (fun q => q.from_code == Lc && q.to_code == M) = some p →
      (tpkgs.filterMap fun q =>
        if q.from_code == Lc then some (ETrans.package q.from_code q.to_code q.hypFun)
        else none).find? (fun e => e.toCode == M)
        = some (.package p.from_code p.to_code p.hypFun) := by
  intro tpkgs
  induction tpkgs with
  | nil => intro Lc M p h; cases h
  | cons q rest ih =>
    intro Lc M p h
    by_cases h1 : (q.from_code == Lc) = true
    · by_cases h2 : (q.to_code == M) = true
      · rw [List.find?_cons_of_pos _ (by
          show (q.from_code == Lc && q.to_code == M) = true
          rw [h1, h2]
          rfl)] at h
        injection h with h
        subst h
        rw [List.filterMap_cons_some (by rw [if_pos h1])]
        rw [List.find?_cons_of_pos _ (by exact h2)]
      · rw [List.find?_cons_of_neg _ (by
          show ¬ (q.from_code == Lc && q.to_code == M) = true
          rw [Bool.and_eq_true]
          rintro ⟨x, y⟩
          exact h2 y)] at h
        rw [List.filterMap_cons_some (by rw [if_pos h1])]
        rw [List.find?_cons_of_neg _ (by exact h2)]
        exact ih Lc M p h
    · rw [List.find?_cons_of_neg _ (by
        show ¬ (q.from_code == Lc && q.to_code == M) = true
        rw [Bool.and_eq_true]
        rintro ⟨x, y⟩
        exact h1 x)] at h
      rw [List.filterMap_cons_none (by rw [if_neg h1])]
      exact ih Lc M p h

theorem find?_initialEdges (tpkgs : List Package) (Lc M : String) (p : Package)
    (hfind : tpkgs.find? (fun q => q.from_code == Lc && q.to_code == M) = some p) :
    (initialEdges tpkgs Lc).find? (fun e => e.toCode == M)
      = some (.package p.from_code p.to_code p.hypFun) := by
  rw [initialEdges]
  exact find?_append_some (find?_pkgEdges tpkgs Lc M p hfind)

/-- C6: for a pair of distinct languages with a discovered direct package
edge between them (`p` the first such package), `get_translation_from_codes`
returns that direct `PackageTranslation` edge itself — never the identity
edge or a synthesized composite — even after the closure pass: direct edges
are loaded first, the closure only appends, and `get_translation` takes the
first match. -/
theorem direct_edge_returned (pkgs : List Package) (Lc M : String) (p : Package)
    (_hne : Lc ≠ M)
    (hfind : (translatePackages pkgs).find?
      (fun q => q.from_code == Lc && q.to_code == M) = some p) :
    getTranslationFromCodes pkgs Lc M
      = .ok (some (.package p.from_code p.to_code p.hypFun))
      ∧ p.from_code = Lc ∧ p.to_code = M := by
  have hp : p ∈ translatePackages pkgs := List.mem_of_find?_eq_some hfind
  have hpred : ((p.from_code == Lc) && (p.to_code == M)) = true :=
    @List.find?_some Package (fun q => q.from_code == Lc && q.to_code == M) p _ hfind
  rw [Bool.and_eq_true] at hpred
  have hfromeq : p.from_code = Lc := eq_of_beq hpred.1
  have htoeq : p.to_code = M := eq_of_beq hpred.2
  have hLc : Lc ∈ langCodes pkgs := hfromeq ▸ (langCodes_cover pkgs p hp).1
  have hM : M ∈ langCodes pkgs := htoeq ▸ (langCodes_cover pkgs p hp).2
  obtain ⟨cnL, hcnL, hfL⟩ := List.mem_map.mp hLc
  obtain ⟨cnM, hcnM, hfM⟩ := List.mem_map.mp hM
  have hokL := getLanguageFromCode_eq pkgs Lc cnL.2 (by rw [← hfL]; simpa using hcnL)
  have hokM := getLanguageFromCode_eq pkgs M cnM.2 (by rw [← hfM]; simpa using hcnM)
  obtain ⟨s, hs⟩ := closureFold_sub (langCodes pkgs) (langCodes pkgs)
    (fun c => initialEdges (translatePackages pkgs) c) true Lc
  have hfound : getTranslationOfCode (finalEdges pkgs Lc) M
      = some (.package p.from_code p.to_code p.hypFun) := by
    show List.find? (fun e => e.toCode == M) (finalEdges pkgs Lc) = _
    rw [show finalEdges pkgs Lc = initialEdges (translatePackages pkgs) Lc ++ s from hs]
    rw [List.find?_append, find?_initialEdges (translatePackages pkgs) Lc M p hfind]
    rfl
  refine ⟨?_, hfromeq, htoeq⟩
  rw [getTranslationFromCodes, hokL, hokM]
  show Except.ok (getTranslationOfCode (finalEdges pkgs Lc) M) = _
  rw [hfound]

/-- C6 (witness): on the demo discovery, en→es resolves to the en→es
package edge itself. -/
theorem direct_edge_returned_witness :
    getTranslationFromCodes demoPkgs "en" "es"
      = .ok (some (.package demoPkg1.from_code demoPkg1.to_code demoPkg1.hypFun))
      ∧ demoPkg1.from_code = "en" ∧ demoPkg1.to_code = "es" :=
  direct_edge_returned demoPkgs "en" "es" demoPkg1 (by decide) (by rfl)

/-! ### Identity lookup (C7) -/

/-- C7 (amended): provided no discovered translate package is a self-loop,
for every language `L` in the built graph `L.get_translation(L)` returns
the identity edge, whose `hypotheses(x, n)` is `n` copies of
`Hypothesis(x, 0)` and whose `translate(x)` is `x`. -/
theorem identity_first_self (pkgs : List Package)
    (hself : ∀ p ∈ translatePackages pkgs, p.from_code ≠ p.to_code) :
    ∀ lang ∈ getInstalledLanguages pkgs,
      ∃ e, lang.getTranslation lang = some e ∧
        (∀ x n, e.hypotheses x n = List.replicate n ⟨x, 0⟩) ∧
        (∀ x, e.translate x = some x) := by
  intro lang hmem
  obtain ⟨cn, hcn, rfl⟩ := (mem_getInstalledLanguages pkgs lang).mp hmem
  refine ⟨.identity cn.1, ?_, fun x n => rfl, fun x => rfl⟩
  obtain ⟨s, hs⟩ := closureFold_sub (langCodes pkgs) (langCodes pkgs)
    (fun c => initialEdges (translatePackages pkgs) c) true cn.1
  have hnone : (List.find? (fun e => e.toCode == cn.1)
      ((translatePackages pkgs).filterMap fun q =>
        if q.from_code == cn.1 then some (ETrans.package q.from_code q.to_code q.hypFun)
        else none)) = none := by
    rw [List.find?_eq_none]
    intro e he hb
    obtain ⟨q, hq, hqe⟩ := List.mem_filterMap.mp he
    by_cases h1 : (q.from_code == cn.1) = true
    · rw [if_pos h1] at hqe
      injection hqe with hqe
      subst hqe
      have hb' : q.to_code = cn.1 := eq_of_beq hb
      exact hself q hq ((eq_of_beq h1).trans hb'.symm)
    · rw [if_neg h1] at hqe
      cases hqe
  have hinit : (initialEdges (translatePackages pkgs) cn.1).find?
      (fun e => e.toCode == cn.1) = some (.identity cn.1) := by
    rw [initialEdges, List.find?_append, hnone]
    show Option.or none _ = _
    rw [Option.none_or]
    exact List.find?_cons_of_pos _ (beq_self_eq_true cn.1)
  show List.find? (fun e => e.toCode == cn.1) (finalEdges pkgs cn.1) = _
  rw [show finalEdges pkgs cn.1
    = initialEdges (translatePackages pkgs) cn.1 ++ s from hs]
  exact find?_append_some hinit

/-- A self-loop packaged behaviour that visibly changes its input. -/
def selfF : String → Nat → List Hypothesis := fun s _ => [⟨s ++ "!", 5⟩]

/-- A discovered en→en package. -/
def selfPkg : Package := ⟨"translate", "en", "English", "en", "English", selfF⟩

/-- C7 (counterexample): with a self-loop en→en package installed, English's
`get_translation` to itself returns that direct `PackageTranslation` (it is
first in `translations_from`), not the identity edge, and its hypotheses are
not `n` copies of `Hypothesis(x, 0)` — so the claim as stated (over *every*
graph built by `get_installed_languages`) is false. -/
theorem identity_lookup_cex :
    (∃ lang ∈ getInstalledLanguages [selfPkg], lang.code = "en" ∧
      lang.getTranslation lang = some (.package "en" "en" selfF)) ∧
    (ETrans.package "en" "en" selfF).hypotheses "x" 1 = [⟨"x!", 5⟩] ∧
    (ETrans.package "en" "en" selfF).translate "x" = some "x!" ∧
    ([⟨"x!", 5⟩] : List Hypothesis) ≠ [⟨"x", 0⟩] ∧ ("x!" : String) ≠ "x" := by
  have hfind : getTranslationOfCode (finalEdges [selfPkg] "en") "en"
      = some (.package selfPkg.from_code selfPkg.to_code selfPkg.hypFun) := by
    obtain ⟨s, hs⟩ := closureFold_sub (langCodes [selfPkg]) (langCodes [selfPkg])
      (fun c => initialEdges (translatePackages [selfPkg]) c) true "en"
    show List.find? (fun e => e.toCode == "en") (finalEdges [selfPkg] "en") = _
    rw [show finalEdges [selfPkg] "en"
      = initialEdges (translatePackages [selfPkg]) "en" ++ s from hs]
    exact find?_append_some (find?_initialEdges _ "en" "en" selfPkg (by rfl))
  exact ⟨⟨⟨"en", "English", finalEdges [selfPkg] "en"⟩,
    (mem_getInstalledLanguages _ _).mpr ⟨("en", "English"), by decide, rfl⟩,
    rfl, hfind⟩, by decide, by decide, by decide, by decide⟩

/-- C7 (witness): the amended theorem at the demo discovery's English node. -/
theorem identity_first_self_witness :
    ∃ e, (⟨"en", "English", finalEdges demoPkgs "en"⟩ : GLanguage).getTranslation
        ⟨"en", "English", finalEdges demoPkgs "en"⟩ = some e ∧
      (∀ x n, e.hypotheses x n = List.replicate n ⟨x, 0⟩) ∧
      (∀ x, e.translate x = some x) :=
  identity_first_self demoPkgs (by decide) _
    ((mem_getInstalledLanguages demoPkgs _).mpr ⟨("en", "English"), by decide, rfl⟩)

/-! ### The lookup layer (C8, C9, C10) -/

/-- C8: `get_language_from_code` returns the installed language whose code
matches the argument exactly when one exists, and fails with an error
(the `IndexError` of `[0]` on an empty filter result) rather than silently
returning a default language when no installed language has that code. -/
theorem get_language_from_code_spec (pkgs : List Package) (code : String) :
    (∀ l, getLanguageFromCode pkgs code = .ok l →
      l.code = code ∧ l ∈ getInstalledLanguages pkgs) ∧
    ((∃ l ∈ getInstalledLanguages pkgs, l.code = code) →
      ∃ l, getLanguageFromCode pkgs code = .ok l) ∧
    ((∀ l ∈ getInstalledLanguages pkgs, l.code ≠ code) →
      getLanguageFromCode pkgs code
        = .error "IndexError: list index out of range") :=
  ⟨fun l h => getLanguageFromCode_ok pkgs code l h,
   getLanguageFromCode_ok_of_mem pkgs code,
   getLanguageFromCode_error pkgs code⟩

/-- Every language of the built graph carries one of the discovered codes. -/
theorem code_mem_langCodes (pkgs : List Package) (l : GLanguage)
    (h : l ∈ getInstalledLanguages pkgs) : l.code ∈ langCodes pkgs := by
  obtain ⟨cn, hcn, rfl⟩ := (mem_getInstalledLanguages pkgs l).mp h
  exact List.mem_map.mpr ⟨cn, hcn, rfl⟩

/-- C8 (witness): unknown code "xx" errors; installed code "en" resolves. -/
theorem get_language_from_code_spec_witness :
    getLanguageFromCode demoPkgs "xx"
      = .error "IndexError: list index out of range" ∧
    ∃ l, getLanguageFromCode demoPkgs "en" = .ok l :=
  ⟨(get_language_from_code_spec demoPkgs "xx").2.2 (fun l hl hcode => by
      have hmem := code_mem_langCodes demoPkgs l hl
      rw [hcode] at hmem
      revert hmem
      decide),
   (get_language_from_code_spec demoPkgs "en").2.1
     ⟨⟨"en", "English", finalEdges demoPkgs "en"⟩,
       (mem_getInstalledLanguages demoPkgs _).mpr ⟨("en", "English"), by decide, rfl⟩,
       rfl⟩⟩

/-- C9: when both codes name installed languages,
`get_translation_from_codes` never raises: it returns the first edge of the
source's `translations_from` whose destination code matches, and the
distinguished absence value `None` (here `ok none`) exactly when no such
edge exists. -/
theorem get_translation_from_codes_spec (pkgs : List Package)
    (from_code to_code : String)
    (h1 : ∃ l ∈ getInstalledLanguages pkgs, l.code = from_code)
    (h2 : ∃ l ∈ getInstalledLanguages pkgs, l.code = to_code) :
    ∃ from_lang, getLanguageFromCode pkgs from_code = .ok from_lang ∧
      getTranslationFromCodes pkgs from_code to_code
        = .ok (from_lang.translations_from.find? (fun e => e.toCode == to_code)) ∧
      (from_lang.translations_from.find? (fun e => e.toCode == to_code) = none
        ↔ ∀ e ∈ from_lang.translations_from, e.toCode ≠ to_code) := by
  obtain ⟨fl, hfl⟩ := getLanguageFromCode_ok_of_mem pkgs from_code h1
  obtain ⟨tl, htl⟩ := getLanguageFromCode_ok_of_mem pkgs to_code h2
  have htlc := (getLanguageFromCode_ok pkgs to_code tl htl).1
  refine ⟨fl, hfl, ?_, ?_⟩
  · rw [getTranslationFromCodes, hfl, htl]
    show Except.ok (fl.getTranslation tl) = _
    rw [GLanguage.getTranslation, getTranslationOfCode, htlc]
  · rw [List.find?_eq_none]
    constructor
    · intro h e he heq
      exact h e he (by rw [heq]; exact beq_self_eq_true _)
    · intro h e he hb
      exact h e he (eq_of_beq hb)

/-- C9 (witness): French and English are installed but French has no edge
to English; the lookup still returns `ok` of the (absent) first match. -/
theorem get_translation_from_codes_spec_witness :
    ∃ from_lang, getLanguageFromCode demoPkgs "fr" = .ok from_lang ∧
      getTranslationFromCodes demoPkgs "fr" "en"
        = .ok (from_lang.translations_from.find? (fun e => e.toCode == "en")) ∧
      (from_lang.translations_from.find? (fun e => e.toCode == "en") = none
        ↔ ∀ e ∈ from_lang.translations_from, e.toCode ≠ "en") :=
  get_translation_from_codes_spec demoPkgs "fr" "en"
    ⟨⟨"fr", "French", finalEdges demoPkgs "fr"⟩,
      (mem_getInstalledLanguages demoPkgs _).mpr ⟨("fr", "French"), by decide, rfl⟩,
      rfl⟩
    ⟨⟨"en", "English", finalEdges demoPkgs "en"⟩,
      (mem_getInstalledLanguages demoPkgs _).mpr ⟨("en", "English"), by decide, rfl⟩,
      rfl⟩

/-- C10: `Language.get_translation` reads only the code of its argument
(`x.to_lang.code == to.code`), so two `Language` instances with equal code
select the same edge; hence `get_translation_from_codes` — which resolves
its two endpoints through two independent `get_installed_languages`
rebuilds — returns a result determined only by the two code strings and the
installed package set. -/
theorem get_translation_code_only (l t1 t2 : GLanguage) (h : t1.code = t2.code)
    (pkgs : List Package) (from_code to_code : String) :
    l.getTranslation t1 = l.getTranslation t2 ∧
    getTranslationFromCodes pkgs from_code to_code
      = (match getLanguageFromCode pkgs from_code,
            getLanguageFromCode pkgs to_code with
         | .ok from_lang, .ok _ =>
             .ok (getTranslationOfCode from_lang.translations_from to_code)
         | .error e, _ => .error e
         | .ok _, .error e => .error e) := by
  constructor
  · rw [GLanguage.getTranslation, GLanguage.getTranslation, h]
  · rw [getTranslationFromCodes]
    cases hfl : getLanguageFromCode pkgs from_code with
    | error e => rfl
    | ok fl =>
      cases htl : getLanguageFromCode pkgs to_code with
      | error e => rfl
      | ok tl =>
        have hc := (getLanguageFromCode_ok pkgs to_code tl htl).1
        show Except.ok (fl.getTranslation tl)
          = Except.ok (getTranslationOfCode fl.translations_from to_code)
        rw [GLanguage.getTranslation, hc]

/-- C10 (witness): two distinct `Language` instances carrying code "es"
(different names and edge lists) select the same edge out of an English
node, and the demo lookup en→es is the code-determined expression. -/
theorem get_translation_code_only_witness :
    ((⟨"en", "English", [.identity "en"]⟩ : GLanguage).getTranslation
        ⟨"es", "Spanish", []⟩
      = (⟨"en", "English", [.identity "en"]⟩ : GLanguage).getTranslation
        ⟨"es", "Espagnol", [.identity "es"]⟩) ∧
    getTranslationFromCodes demoPkgs "en" "es"
      = (match getLanguageFromCode demoPkgs "en",
            getLanguageFromCode demoPkgs "es" with
         | .ok from_lang, .ok _ =>
             .ok (getTranslationOfCode from_lang.translations_from "es")
         | .error e, _ => .error e
         | .ok _, .error e => .error e) :=
  get_translation_code_only ⟨"en", "English", [.identity "en"]⟩
    ⟨"es", "Spanish", []⟩ ⟨"es", "Espagnol", [.identity "es"]⟩ rfl
    demoPkgs "en" "es"
